import Mathlib

/-!
Verification development for the product-manager repository.

The definitions below are a shallow embedding of the code in
src/transformer.py and src/translator.py: cell values are strings,
a pandas NA / missing cell is `Option.none`, Python dictionaries are
association lists with insertion-order update semantics, and the
worksheet is a list of rows of optional values (1-based row/column
numbers at the interface, as in openpyxl).  Python character
comparisons are embedded through code points (`Char.toNat`).
-/

namespace PM

/-! ### Python string primitives (ASCII domain, as used by the repository) -/

/-- Python `str.upper` on one ASCII character. -/
def upChar (c : Char) : Char :=
  if 97 ≤ c.toNat ∧ c.toNat ≤ 122 then Char.ofNat (c.toNat - 32) else c

/-- Python `str.lower` on one ASCII character. -/
def lowChar (c : Char) : Char :=
  if 65 ≤ c.toNat ∧ c.toNat ≤ 90 then Char.ofNat (c.toNat + 32) else c

/-- Python whitespace for `str.strip` (space, tab, newline, CR, FF, VT). -/
def isPySpace (c : Char) : Bool :=
  c.toNat = 32 ∨ (9 ≤ c.toNat ∧ c.toNat ≤ 13)

/-- Python `str.strip` on a character list. -/
def stripChars (l : List Char) : List Char :=
  ((l.dropWhile isPySpace).reverse.dropWhile isPySpace).reverse

/-- Test whether `p` is an initial segment of `l` (Python `str.startswith`). -/
def leadsWith : List Char → List Char → Bool
  | [], _ => true
  | _ :: _, [] => false
  | p :: ps, c :: cs => p = c && leadsWith ps cs

/-- Python `str.endswith`. -/
def trailsWith (p l : List Char) : Bool :=
  leadsWith p.reverse l.reverse

/-- Recursion core of `replaceAll`; the fuel argument only bounds the depth
(each step consumes at least one character, so `l.length` fuel is enough)
and keeps the recursion structural. -/
def replaceAllFuel (pat rep : List Char) : Nat → List Char → List Char
  | 0, l => l
  | _ + 1, [] => []
  | fuel + 1, c :: rest =>
    if leadsWith pat (c :: rest) ∧ 0 < pat.length then
      rep ++ replaceAllFuel pat rep fuel (rest.drop (pat.length - 1))
    else
      c :: replaceAllFuel pat rep fuel rest

/-- Python `str.replace pat rep` (all non-overlapping occurrences, left to
right); the sources only call it with a non-empty pattern. -/
def replaceAll (pat rep l : List Char) : List Char :=
  replaceAllFuel pat rep l.length l

/-! ### Column-letter addresses -/

/-- Value of one letter digit in the conventional no-zero base-26 code
(A is 1 .. Z is 26). -/
def letterDigit (c : Char) : Nat := c.toNat - 65 + 1

/-- Conventional (1-based) numeric value of a letter string:
base-26 positional arithmetic with no zero digit. -/
def lettersVal (l : List Char) : Nat :=
  l.foldl (fun a c => a * 26 + letterDigit c) 0

/-- Embeds `column_letter_to_index` from src/transformer.py: upper-cases,
strips, folds the base-26 value, then subtracts one ("convert to 0-based").
On the empty string the Python function returns -1, hence the `Int` result. -/
def column_letter_to_index (s : String) : Int :=
  (lettersVal (stripChars (s.data.map upChar)) : Int) - 1

/-- Uppercase A..Z test. -/
def isUpperLetter (c : Char) : Bool := 65 ≤ c.toNat ∧ c.toNat ≤ 90

/-- Letter of either case. -/
def isLetterChar (c : Char) : Bool :=
  (65 ≤ c.toNat ∧ c.toNat ≤ 90) ∨ (97 ≤ c.toNat ∧ c.toNat ≤ 122)

/-- Models the external decoder the materializer calls at its write site
(openpyxl `column_index_from_string`): upper-cases its argument, accepts one
to three letters (columns A..ZZZ of the xlsx grid), returns the conventional
1-based index, and raises (here: `none`) on anything else. -/
def column_index_from_string (s : String) : Option Nat :=
  let u := s.data.map upChar
  if 1 ≤ u.length ∧ u.length ≤ 3 ∧ u.all isUpperLetter then
    some (lettersVal u)
  else
    none

/-- Conventional letter encoding of a 1-based column number (the inverse of
`lettersVal`, following the wording of the specification: A is 1, Z is 26,
AA is 27); `0` encodes to the empty string. -/
def colLetters : Nat → List Char
  | 0 => []
  | n + 1 => colLetters (n / 26) ++ [Char.ofNat (65 + n % 26)]
decreasing_by
  exact Nat.lt_succ_of_le (Nat.div_le_self n 26)

/-! ### Facts about the letter code -/

theorem toNat_ofNat_small {n : Nat} (h : n < 55296) : (Char.ofNat n).toNat = n := by
  have hv : Nat.isValidChar n := Or.inl h
  rw [Char.ofNat, dif_pos hv]
  rfl

theorem upChar_of_upper {c : Char} (h : isUpperLetter c = true) : upChar c = c := by
  simp only [isUpperLetter, decide_eq_true_eq] at h
  rw [upChar, if_neg]
  omega

theorem upChar_isUpper {c : Char} (h : isLetterChar c = true) :
    isUpperLetter (upChar c) = true := by
  simp only [isLetterChar, decide_eq_true_eq] at h
  rcases h with h | h
  · rw [upChar_of_upper] <;> simp [isUpperLetter, h.1, h.2]
  · simp only [upChar, if_pos h, isUpperLetter, decide_eq_true_eq]
    rw [toNat_ofNat_small (by omega)]
    omega

theorem upper_not_space {c : Char} (h : isUpperLetter c = true) :
    isPySpace c = false := by
  simp only [isUpperLetter, decide_eq_true_eq] at h
  simp only [isPySpace, decide_eq_false_iff_not]
  omega

theorem stripChars_of_letters {l : List Char} (h : l.all isUpperLetter = true) :
    stripChars l = l := by
  have hd : ∀ m : List Char, m.all isUpperLetter = true → m.dropWhile isPySpace = m := by
    intro m hm
    cases m with
    | nil => rfl
    | cons c t =>
      simp only [List.all_cons, Bool.and_eq_true] at hm
      rw [List.dropWhile_cons, if_neg]
      simp [upper_not_space hm.1]
  have h1 : l.reverse.all isUpperLetter = true := by
    simp only [List.all_eq_true] at h ⊢
    exact fun c hc => h c (List.mem_reverse.mp hc)
  simp only [stripChars, hd l h, hd l.reverse h1, List.reverse_reverse]

theorem lettersVal_append_singleton (l : List Char) (c : Char) :
    lettersVal (l ++ [c]) = lettersVal l * 26 + letterDigit c := by
  simp [lettersVal, List.foldl_append]

theorem letterDigit_bounds {c : Char} (h : isUpperLetter c = true) :
    1 ≤ letterDigit c ∧ letterDigit c ≤ 26 := by
  simp only [isUpperLetter, decide_eq_true_eq] at h
  simp only [letterDigit]
  omega

/-- Round trip: re-encoding the conventional value of a valid letter address
gives back the address. -/
theorem colLetters_lettersVal :
    ∀ l : List Char, l ≠ [] → l.all isUpperLetter = true →
      colLetters (lettersVal l) = l := by
  intro l
  induction l using List.reverseRecOn with
  | nil => intro h; exact absurd rfl h
  | append_singleton t c ih =>
    intro _ hall
    have hallt : t.all isUpperLetter = true := by
      simp only [List.all_append, Bool.and_eq_true] at hall
      exact hall.1
    have hc : isUpperLetter c = true := by
      simp only [List.all_append, List.all_cons, Bool.and_eq_true] at hall
      exact hall.2.1
    have hdig := letterDigit_bounds hc
    rw [lettersVal_append_singleton]
    have hk : lettersVal t * 26 + letterDigit c =
        (26 * lettersVal t + (letterDigit c - 1)) + 1 := by omega
    rw [hk]
    have hmod : (26 * lettersVal t + (letterDigit c - 1)) % 26 = letterDigit c - 1 := by
      rw [Nat.mul_add_mod]
      exact Nat.mod_eq_of_lt (by omega)
    have hdiv : (26 * lettersVal t + (letterDigit c - 1)) / 26 = lettersVal t := by
      rw [Nat.mul_add_div (by norm_num)]
      have : (letterDigit c - 1) / 26 = 0 := Nat.div_eq_of_lt (by omega)
      omega
    rw [colLetters, hmod, hdiv]
    have hch : Char.ofNat (65 + (letterDigit c - 1)) = c := by
      have hcn : 65 + (letterDigit c - 1) = c.toNat := by
        have hc' := hc
        simp only [isUpperLetter, decide_eq_true_eq] at hc'
        simp only [letterDigit]
        omega
      rw [hcn]
      exact Char.ofNat_toNat c
    rw [hch]
    congr 1
    by_cases ht : t = []
    · subst ht
      rw [show lettersVal [] = 0 from rfl, colLetters]
    · exact ih ht hallt

theorem map_upChar_of_upper {l : List Char} (h : l.all isUpperLetter = true) :
    l.map upChar = l := by
  induction l with
  | nil => rfl
  | cons c t ih =>
    simp only [List.all_cons, Bool.and_eq_true] at h
    simp [upChar_of_upper h.1, ih h.2]

theorem decode_of_upper {s : String} (h2 : s.data.all isUpperLetter = true) :
    column_letter_to_index s = (lettersVal s.data : Int) - 1 := by
  simp only [column_letter_to_index, map_upChar_of_upper h2, stripChars_of_letters h2]

/-- C2 counterexample: the claim says decoding maps `A` to its conventional
1-based column number 1, but the repository's decoder
`column_letter_to_index` maps `A` to 0 (and `Z` to 25, `AA` to 26): it
returns the 0-based index, one less than the conventional number. -/
theorem C2_counterexample :
    column_letter_to_index "A" = 0 ∧ column_letter_to_index "A" ≠ 1 ∧
    column_letter_to_index "Z" = 25 ∧ column_letter_to_index "AA" = 26 := by
  refine ⟨by decide, by decide, by decide, by decide⟩

/-- C2 (amended): on every valid letter address (non-empty, uppercase
letters) the repository's decoder `column_letter_to_index` returns the
conventional base-26 no-zero-digit value minus one — a 0-based index — so
re-encoding the decoded index plus one returns the original address, and
decoding is injective (a bijection onto 0-based indices). -/
theorem C2_decode_zero_based_bijection (s : String) (h1 : s.data ≠ [])
    (h2 : s.data.all isUpperLetter = true) :
    column_letter_to_index s = (lettersVal s.data : Int) - 1 ∧
    colLetters ((column_letter_to_index s + 1).toNat) = s.data ∧
    (∀ t : String, t.data ≠ [] → t.data.all isUpperLetter = true →
      column_letter_to_index t = column_letter_to_index s → t = s) := by
  refine ⟨decode_of_upper h2, ?_, ?_⟩
  · rw [decode_of_upper h2]
    have hn : ((lettersVal s.data : Int) - 1 + 1).toNat = lettersVal s.data := by omega
    rw [hn]
    exact colLetters_lettersVal s.data h1 h2
  · intro t ht1 ht2 heq
    rw [decode_of_upper h2, decode_of_upper ht2] at heq
    have hval : lettersVal t.data = lettersVal s.data := by omega
    have hdt := colLetters_lettersVal t.data ht1 ht2
    rw [hval, colLetters_lettersVal s.data h1 h2] at hdt
    exact String.ext hdt.symm

/-- Witness for C2 (amended) at the concrete address `BA`. -/
theorem C2_witness :
    column_letter_to_index "BA" = (lettersVal "BA".data : Int) - 1 ∧
    colLetters ((column_letter_to_index "BA" + 1).toNat) = "BA".data :=
  ⟨(C2_decode_zero_based_bijection "BA" (by decide) (by decide)).1,
   (C2_decode_zero_based_bijection "BA" (by decide) (by decide)).2.1⟩

/-- C10: on every non-empty letter string (lowercase folded to uppercase)
the repository's own helper `column_letter_to_index` returns the base-26
positional value of the letters minus one — a 0-based index — which is one
less than the 1-based index returned by the decoder the materializer
actually uses at its write site (openpyxl `column_index_from_string`,
defined for addresses of at most three letters). -/
theorem C10_helper_zero_based (s : String) (h1 : s.data ≠ [])
    (h2 : s.data.all isLetterChar = true) :
    column_letter_to_index s = (lettersVal (s.data.map upChar) : Int) - 1 ∧
    (s.data.length ≤ 3 →
      column_index_from_string s = some (lettersVal (s.data.map upChar)) ∧
      (lettersVal (s.data.map upChar) : Int) = column_letter_to_index s + 1) := by
  have hu : (s.data.map upChar).all isUpperLetter = true := by
    simp only [List.all_map, List.all_eq_true, Function.comp] at h2 ⊢
    exact fun c hc => upChar_isUpper (h2 c hc)
  have hfix : stripChars (s.data.map upChar) = s.data.map upChar :=
    stripChars_of_letters hu
  have hdec : column_letter_to_index s = (lettersVal (s.data.map upChar) : Int) - 1 := by
    simp only [column_letter_to_index, hfix]
  refine ⟨hdec, fun hlen => ⟨?_, by omega⟩⟩
  have hcond : 1 ≤ (s.data.map upChar).length ∧ (s.data.map upChar).length ≤ 3 ∧
      (s.data.map upChar).all isUpperLetter = true := by
    refine ⟨?_, ?_, hu⟩
    · simp only [List.length_map]
      cases hS : s.data with
      | nil => exact absurd hS h1
      | cons c t => simp [hS]
    · simpa using hlen
  simp only [column_index_from_string, if_pos hcond]

/-- Witness for C10 at the concrete lowercase address `a`
(0-based helper value 0, 1-based openpyxl value 1). -/
theorem C10_witness :
    column_letter_to_index "a" = (lettersVal ("a".data.map upChar) : Int) - 1 ∧
    column_index_from_string "a" = some (lettersVal ("a".data.map upChar)) :=
  ⟨(C10_helper_zero_based "a" (by decide) (by decide)).1,
   ((C10_helper_zero_based "a" (by decide) (by decide)).2 (by decide)).1⟩

/-! ### Values, products, dictionaries -/

/-- Cell values: the pipeline moves them opaquely, so strings suffice;
a missing column and a pandas NA cell are both represented by a failed
lookup (`none`), matching how every read in the sources guards a value
with membership and `pd.notna` together. -/
abbrev Val := String

/-- One product record: attribute name to present (non-NA) raw value. -/
abbrev Product := List (String × Val)

/-- Association-list lookup (first match), the read side of a Python dict
or of a pandas row indexed by column name. -/
def alookup {α : Type} (l : List (String × α)) (k : String) : Option α :=
  (l.find? (fun p => p.1 = k)).map (fun p => p.2)

/-- Python dict assignment `d[k] = v`: replace in place if the key exists,
else append (insertion order preserved). -/
def dictInsert {α : Type} (l : List (String × α)) (k : String) (v : α) :
    List (String × α) :=
  if l.any (fun p => p.1 = k) then
    l.map (fun p => if p.1 = k then (k, v) else p)
  else
    l ++ [(k, v)]

/-- One row of the mapping table as `load_mapping` builds it:
`value_type` (scope: same / platform_specific), `data_source`
(input_file / punch_card), and per-platform destination column letters. -/
structure AttrConfig where
  value_type : String
  data_source : String
  columns : List (String × String)
deriving DecidableEq

/-- The loaded mapping table, in table row order, keyed by attribute name. -/
abbrev Mapping := List (String × AttrConfig)

/-- The loaded attribute value store (`load_attributes` result shape). -/
structure Attrs where
  same : List (String × Val)
  platform_specific : List (String × List (String × Val))
deriving DecidableEq

/-- Embeds the per-attribute value resolution inside `transform_product`
(src/transformer.py lines 194-224): punch-card values come from the store
(shared or platform-keyed), input-file values from the product record with
the desciption_fr / description_fr spelling fallback; anything else
resolves to no value. -/
def resolve_value (attrName : String) (cfg : AttrConfig) (product : Product)
    (platform : String) (attrs : Attrs) : Option Val :=
  if cfg.data_source = "punch_card" then
    if cfg.value_type = "same" then
      alookup attrs.same attrName
    else if cfg.value_type = "platform_specific" then
      match alookup attrs.platform_specific attrName with
      | some pv => alookup pv platform
      | none => none
    else none
  else if cfg.data_source = "input_file" then
    match alookup product attrName with
    | some v => some v
    | none =>
      if attrName = "desciption_fr" then alookup product "description_fr"
      else if attrName = "description_fr" then alookup product "desciption_fr"
      else none
  else none

/-- One mapping-table row of the `transform_product` loop: skip attributes
without a destination for this platform or without a resolved value,
otherwise record the value keyed by the destination column letter. -/
def tstep (product : Product) (platform : String) (attrs : Attrs)
    (acc : List (String × Val)) (pc : String × AttrConfig) :
    List (String × Val) :=
  match alookup pc.2.columns platform with
  | none => acc
  | some col =>
    match resolve_value pc.1 pc.2 product platform attrs with
    | none => acc
    | some v => dictInsert acc col v

/-- Embeds `transform_product`: fold the mapping table in row order,
with dict semantics (last write to a column letter wins). -/
def transform_product (product : Product) (platform : String) (mapping : Mapping)
    (attrs : Attrs) : List (String × Val) :=
  mapping.foldl (tstep product platform attrs) []

/-- Embeds the EAN auto-mapping in `generate_platform_file` (lines 305-310):
if the product carries an `ean` and `shop_sku` is mapped for this platform,
the EAN value overwrites that destination. -/
def apply_ean_rule (product : Product) (platform : String) (mapping : Mapping)
    (cv : List (String × Val)) : List (String × Val) :=
  match alookup product "ean" with
  | none => cv
  | some e =>
    match alookup mapping "shop_sku" with
    | none => cv
    | some cfg =>
      match alookup cfg.columns platform with
      | none => cv
      | some col => dictInsert cv col e

/-- Embeds the misspelling compatibility block in `generate_platform_file`
(lines 312-320): when `desciption_fr` is mapped for this platform, write
the product's `description_fr` value to its destination, falling back to
the product's `desciption_fr` value. -/
def apply_alias_rule (product : Product) (platform : String)
    (mapping : Mapping) (cv : List (String × Val)) : List (String × Val) :=
  match alookup mapping "desciption_fr" with
  | none => cv
  | some cfg =>
    match alookup cfg.columns platform with
    | none => cv
    | some col =>
      match alookup product "description_fr" with
      | some v => dictInsert cv col v
      | none =>
        match alookup product "desciption_fr" with
        | some v => dictInsert cv col v
        | none => cv

/-- The complete per-product destination map built by
`generate_platform_file` before the cells are written: generic resolution,
then the EAN rule, then the misspelling rule (in that order). -/
def column_values (product : Product) (platform : String) (mapping : Mapping)
    (attrs : Attrs) : List (String × Val) :=
  apply_alias_rule product platform mapping
    (apply_ean_rule product platform mapping
      (transform_product product platform mapping attrs))

/-- C9: a `punch_card`/`same` (STATIC_TABLE, SAME-scope) attribute resolves
to the single stored shared value for every platform with a destination:
resolving for two platforms P and Q gives the same, platform-independent
result. -/
theorem C9_same_static_platform_independent (attrName : String)
    (cfg : AttrConfig) (product : Product) (attrs : Attrs) (P Q cP cQ : String)
    (hsrc : cfg.data_source = "punch_card") (hscope : cfg.value_type = "same")
    (_hP : alookup cfg.columns P = some cP)
    (_hQ : alookup cfg.columns Q = some cQ) :
    resolve_value attrName cfg product P attrs = alookup attrs.same attrName ∧
    resolve_value attrName cfg product Q attrs = alookup attrs.same attrName := by
  constructor <;> simp [resolve_value, hsrc, hscope]

/-- Witness for C9: a concrete shared attribute mapped for two platforms. -/
theorem C9_witness :
    resolve_value "brand" ⟨"same", "punch_card", [("p", "A"), ("q", "B")]⟩
      [] "p" ⟨[("brand", "ACME")], []⟩ = alookup [("brand", "ACME")] "brand" ∧
    resolve_value "brand" ⟨"same", "punch_card", [("p", "A"), ("q", "B")]⟩
      [] "q" ⟨[("brand", "ACME")], []⟩ = alookup [("brand", "ACME")] "brand" :=
  C9_same_static_platform_independent "brand"
    ⟨"same", "punch_card", [("p", "A"), ("q", "B")]⟩ [] ⟨[("brand", "ACME")], []⟩
    "p" "q" "A" "B" rfl rfl (by decide) (by decide)

/-! ### The attribute value store loader -/

/-- Embeds the Same_Input_Attributes loop of `load_attributes`: a value is
stored (under the stripped attribute name) whenever it is present (non-NA);
this path has no emptiness check. -/
def load_same (rows : List (String × Option Val)) : List (String × Val) :=
  rows.foldl (fun acc r =>
    match r.2 with
    | some v => dictInsert acc ⟨stripChars r.1.data⟩ v
    | none => acc) []

/-- Embeds the per-row platform-value extraction of `load_attributes`:
iterate the sheet's columns, keep the `_value` columns, key by the column
name with `_value` removed, and retain only present, non-blank values,
stripped. -/
def load_platform_row (cols : List String) (row : List (String × Option Val)) :
    List (String × Val) :=
  cols.foldl (fun pv col =>
    if trailsWith "_value".data col.data ∧ col ≠ "attribute_name" then
      match alookup row col with
      | some (some v) =>
        if stripChars v.data ≠ [] then
          dictInsert pv ⟨replaceAll "_value".data [] col.data⟩ ⟨stripChars v.data⟩
        else pv
      | _ => pv
    else pv) []

/-- Embeds `load_attributes` (happy path): builds the SAME table and the
PLATFORM_SPECIFIC table; a platform-specific attribute row is kept only if
it retained at least one platform value. -/
def load_attributes (same_rows : List (String × Option Val)) (plat_cols : List String)
    (plat_rows : List (String × List (String × Option Val))) : Attrs where
  same := load_same same_rows
  platform_specific := plat_rows.foldl (fun acc r =>
    let pv := load_platform_row plat_cols r.2
    if pv ≠ [] then dictInsert acc ⟨stripChars r.1.data⟩ pv else acc) []

/-! ### Invariant machinery for folds and dict updates -/

theorem mem_dictInsert {α : Type} {l : List (String × α)} {k : String} {v : α}
    {x : String × α} (hx : x ∈ dictInsert l k v) : x ∈ l ∨ x = (k, v) := by
  unfold dictInsert at hx
  by_cases h : l.any (fun p => p.1 = k) = true
  · rw [if_pos h] at hx
    rcases List.mem_map.mp hx with ⟨y, hy, hxy⟩
    by_cases hk : y.1 = k
    · right
      rw [← hxy, if_pos hk]
    · left
      rw [← hxy, if_neg hk]
      exact hy
  · rw [if_neg h] at hx
    rcases List.mem_append.mp hx with h1 | h1
    · left; exact h1
    · right; simpa using h1

theorem foldl_preserves {α γ : Type} (P : γ → Prop) (step : γ → α → γ)
    (hstep : ∀ acc a, P acc → P (step acc a)) :
    ∀ (l : List α) (acc : γ), P acc → P (l.foldl step acc) := by
  intro l
  induction l with
  | nil => intro acc h; exact h
  | cons a t ih => intro acc h; exact ih _ (hstep acc a h)

theorem foldl_preserves_mem {α γ : Type} (P : γ → Prop) (step : γ → α → γ)
    (S : List α) (hstep : ∀ acc a, a ∈ S → P acc → P (step acc a)) :
    ∀ l : List α, (∀ a ∈ l, a ∈ S) → ∀ acc : γ, P acc → P (l.foldl step acc) := by
  intro l
  induction l with
  | nil => intro _ acc h; exact h
  | cons a t ih =>
    intro hsub acc h
    exact ih (fun x hx => hsub x (List.mem_cons_of_mem a hx)) _
      (hstep acc a (hsub a (List.mem_cons_self a t)) h)

theorem load_platform_row_nonblank (cols : List String)
    (row : List (String × Option Val)) :
    ∀ qv ∈ load_platform_row cols row, qv.2 ≠ "" := by
  unfold load_platform_row
  refine foldl_preserves (fun (acc : List (String × Val)) => ∀ qv ∈ acc, qv.2 ≠ "") _ ?_ cols [] ?_
  · intro acc col hacc qv hqv
    by_cases hcond : trailsWith "_value".data col.data ∧ col ≠ "attribute_name"
    · rw [if_pos hcond] at hqv
      cases hlk : alookup row col with
      | none =>
        rw [hlk] at hqv
        exact hacc qv hqv
      | some ov =>
        cases ov with
        | none =>
          rw [hlk] at hqv
          exact hacc qv hqv
        | some v =>
          rw [hlk] at hqv
          have hqv' : qv ∈ (if stripChars v.data ≠ [] then
              dictInsert acc ⟨replaceAll "_value".data [] col.data⟩
                ⟨stripChars v.data⟩
            else acc) := hqv
          by_cases hne : stripChars v.data ≠ []
          · rw [if_pos hne] at hqv'
            rcases mem_dictInsert hqv' with hold | hnew
            · exact hacc qv hold
            · rw [hnew]
              intro hEq
              exact hne (by simpa using congrArg String.data hEq)
          · rw [if_neg hne] at hqv'
            exact hacc qv hqv'
    · rw [if_neg hcond] at hqv
      exact hacc qv hqv
  · intro qv hqv
    exact absurd hqv (List.not_mem_nil qv)

/-- C6 counterexample: a present but empty value in the SAME sheet is
stored as an empty string by the loader, contradicting "values that are
empty or missing ... are never stored as empty strings" for the SAME-scope
table. -/
theorem C6_counterexample :
    (load_attributes [("a", some "")] [] []).same = [("a", "")] ∧
    alookup (load_attributes [("a", some "")] [] []).same "a" = some "" := by
  exact ⟨rfl, rfl⟩

/-- C6 (amended): every value retained in the PLATFORM_SPECIFIC table is a
stripped non-blank string, and every SAME entry originates from a present
(non-NA) source value — missing values are dropped — but on the SAME path
an empty string that is present is retained as-is (see the
counterexample). -/
theorem C6_store_value_invariants (same_rows : List (String × Option Val))
    (plat_cols : List String)
    (plat_rows : List (String × List (String × Option Val))) :
    (∀ pr ∈ (load_attributes same_rows plat_cols plat_rows).platform_specific,
      ∀ qv ∈ pr.2, qv.2 ≠ "") ∧
    (∀ sv ∈ (load_attributes same_rows plat_cols plat_rows).same,
      ∃ r ∈ same_rows, r.2 = some sv.2) := by
  constructor
  · show ∀ pr ∈ plat_rows.foldl _ [], _
    refine foldl_preserves
      (fun (acc : List (String × List (String × Val))) => ∀ pr ∈ acc, ∀ qv ∈ pr.2, qv.2 ≠ "") _ ?_ plat_rows [] ?_
    · intro acc r hacc pr hpr
      by_cases hne : load_platform_row plat_cols r.2 ≠ []
      · simp only [if_pos hne] at hpr
        rcases mem_dictInsert hpr with hold | hnew
        · exact hacc pr hold
        · rw [hnew]
          exact load_platform_row_nonblank plat_cols r.2
      · simp only [if_neg hne] at hpr
        exact hacc pr hpr
    · intro pr hpr
      exact absurd hpr (List.not_mem_nil pr)
  · show ∀ sv ∈ load_same same_rows, _
    unfold load_same
    refine foldl_preserves_mem
      (fun (acc : List (String × Val)) => ∀ sv ∈ acc, ∃ r ∈ same_rows, r.2 = some sv.2) _ same_rows
      ?_ same_rows (fun a ha => ha) [] ?_
    · intro acc a ha hacc sv hsv
      cases hv : a.2 with
      | none =>
        rw [hv] at hsv
        exact hacc sv hsv
      | some v =>
        rw [hv] at hsv
        rcases mem_dictInsert hsv with hold | hnew
        · exact hacc sv hold
        · exact ⟨a, ha, by rw [hv, hnew]⟩
    · intro sv hsv
      exact absurd hsv (List.not_mem_nil sv)

/-- Witness for C6 (amended): a concrete store with one whitespace-padded
platform value; the loader keeps it stripped and non-blank. -/
theorem C6_witness :
    (load_attributes [("a", some "v")] ["p_value"]
      [("b", [("p_value", some " x ")])]).platform_specific =
      [("b", [("p", "x")])] ∧ ("x" : Val) ≠ "" := by
  constructor
  · rfl
  · exact (C6_store_value_invariants [("a", some "v")] ["p_value"]
      [("b", [("p_value", some " x ")])]).1 ("b", [("p", "x")]) (by decide)
      ("p", "x") (by decide)

/-! ### The worksheet model and the materializer -/

/-- One worksheet row: optional cell values, index 0 is column 1. -/
abbrev SheetRow := List (Option Val)

/-- A worksheet: list of rows, index 0 is row 1. -/
abbrev Sheet := List SheetRow

/-- `any(cell.value is not None for cell in ws[row])`. -/
def rowHasData (r : SheetRow) : Bool := r.any (fun c => c.isSome)

/-- 1-based row access as in openpyxl; absent rows read as empty. -/
def getRow (ws : Sheet) (i : Nat) : SheetRow := ws.getD (i - 1) []

/-- 1-based cell read; absent cells read as empty (None). -/
def getCell (ws : Sheet) (r c : Nat) : Option Val := (getRow ws r).getD (c - 1) none

/-- Write at 0-based position `n` of a row, extending it with empty cells
if needed (openpyxl creates the cell on access). -/
def setIdx : SheetRow → Nat → Val → SheetRow
  | [], 0, v => [some v]
  | [], n + 1, v => none :: setIdx [] n v
  | _ :: t, 0, v => some v :: t
  | x :: t, n + 1, v => x :: setIdx t n v

/-- Write at 0-based row `r`, 0-based column `c`, extending the sheet with
empty rows if needed. -/
def setRowIdx : Sheet → Nat → Nat → Val → Sheet
  | [], 0, c, v => [setIdx [] c v]
  | [], r + 1, c, v => [] :: setRowIdx [] r c v
  | row :: t, 0, c, v => setIdx row c v :: t
  | row :: t, r + 1, c, v => row :: setRowIdx t r c v

/-- Embeds `ws.cell(row=r, column=c).value = v` (1-based coordinates). -/
def setCell (ws : Sheet) (r c : Nat) (v : Val) : Sheet :=
  setRowIdx ws (r - 1) (c - 1) v

/-- One step of the last_data_row scan: remember row number `p.1` if it is
at least 3 and its row has any value. -/
def ldrStep (acc : Nat) (p : Nat × SheetRow) : Nat :=
  if 3 ≤ p.1 ∧ rowHasData p.2 then p.1 else acc

/-- Embeds the last_data_row scan of `generate_platform_file` (lines
288-292): start at 2, then for each row from 3 to the last, remember it if
it has any value. -/
def lastDataRow (ws : Sheet) : Nat :=
  (List.enumFrom 1 ws).foldl ldrStep 2

/-- Embeds lines 294-296: `if last_data_row > 2: ws.delete_rows(3,
last_data_row - 2)`, i.e. remove the 1-based row block 3..last. -/
def clearDataRows (ws : Sheet) : Sheet :=
  if 2 < lastDataRow ws then ws.take 2 ++ ws.drop (lastDataRow ws) else ws

/-- Embeds the per-product write loop (lines 323-333): write each resolved
column-letter/value pair at row `r`; a pair whose address does not decode
is logged and skipped, affecting nothing else. -/
def writeProductRow (ws : Sheet) (r : Nat) (cv : List (String × Val)) : Sheet :=
  cv.foldl (fun acc p =>
    match column_index_from_string p.1 with
    | some idx => setCell acc r idx p.2
    | none => acc) ws

/-- One step of the product loop: write product `p.2` (0-based index
`p.1`) at row `3 + p.1`. -/
def matStep (acc : Sheet) (p : Nat × List (String × Val)) : Sheet :=
  writeProductRow acc (3 + p.1) p.2

/-- Embeds steps 3-5 of `generate_platform_file`: clear the data rows
(row 3 and below, headers are rows 1-2), then write product `i` (0-based)
at row `3 + i`. -/
def materialize (ws : Sheet) (prows : List (List (String × Val))) : Sheet :=
  prows.enum.foldl matStep (clearDataRows ws)

/-- The value the write loop leaves at 1-based column `idx` of a product's
row: the value of the last pair whose address decodes to `idx`, if any. -/
def rowWriteAt : List (String × Val) → Nat → Option Val
  | [], _ => none
  | p :: t, idx =>
    match rowWriteAt t idx with
    | some v => some v
    | none =>
      match column_index_from_string p.1 with
      | some j => if j = idx then some p.2 else none
      | none => none

/-! ### Cell-write lemmas -/

theorem getD_setIdx_self : ∀ (l : SheetRow) (n : Nat) (v : Val),
    (setIdx l n v).getD n none = some v := by
  intro l
  induction l with
  | nil =>
    intro n v
    induction n with
    | zero => rfl
    | succ m ih => simpa [setIdx] using ih
  | cons x t ih =>
    intro n v
    cases n with
    | zero => rfl
    | succ m => simpa [setIdx] using ih m v

theorem getD_setIdx_other : ∀ (l : SheetRow) (n m : Nat) (v : Val), m ≠ n →
    (setIdx l n v).getD m none = l.getD m none := by
  intro l
  induction l with
  | nil =>
    intro n m v hmn
    induction n generalizing m with
    | zero =>
      cases m with
      | zero => exact absurd rfl hmn
      | succ m2 => rfl
    | succ k ih =>
      cases m with
      | zero => rfl
      | succ m2 => simpa [setIdx] using ih m2 (by omega)
  | cons x t ih =>
    intro n m v hmn
    cases n with
    | zero =>
      cases m with
      | zero => exact absurd rfl hmn
      | succ m2 => rfl
    | succ k =>
      cases m with
      | zero => rfl
      | succ m2 => simpa [setIdx] using ih k m2 v (by omega)

theorem setRowIdx_getD_self : ∀ (ws : Sheet) (r c : Nat) (v : Val),
    (setRowIdx ws r c v).getD r [] = setIdx (ws.getD r []) c v := by
  intro ws
  induction ws with
  | nil =>
    intro r c v
    induction r with
    | zero => rfl
    | succ k ih => simpa [setRowIdx] using ih
  | cons row t ih =>
    intro r c v
    cases r with
    | zero => rfl
    | succ k => simpa [setRowIdx] using ih k c v

theorem setRowIdx_getD_other : ∀ (ws : Sheet) (r c : Nat) (v : Val) (r' : Nat),
    r' ≠ r → (setRowIdx ws r c v).getD r' [] = ws.getD r' [] := by
  intro ws
  induction ws with
  | nil =>
    intro r c v r' hr
    induction r generalizing r' with
    | zero =>
      cases r' with
      | zero => exact absurd rfl hr
      | succ m => rfl
    | succ k ih =>
      cases r' with
      | zero => rfl
      | succ m => simpa [setRowIdx] using ih m (by omega)
  | cons row t ih =>
    intro r c v r' hr
    cases r with
    | zero =>
      cases r' with
      | zero => exact absurd rfl hr
      | succ m => rfl
    | succ k =>
      cases r' with
      | zero => rfl
      | succ m => simpa [setRowIdx] using ih k c v m (by omega)

theorem getRow_setCell_other (ws : Sheet) (r c : Nat) (v : Val) (r' : Nat)
    (h : r' ≠ r) (h1 : 1 ≤ r) (h2 : 1 ≤ r') :
    getRow (setCell ws r c v) r' = getRow ws r' := by
  unfold getRow setCell
  exact setRowIdx_getD_other ws (r - 1) (c - 1) v (r' - 1) (by omega)

theorem getCell_setCell_self (ws : Sheet) (r c : Nat) (v : Val) :
    getCell (setCell ws r c v) r c = some v := by
  unfold getCell getRow setCell
  rw [setRowIdx_getD_self]
  exact getD_setIdx_self _ _ _

theorem getCell_setCell_other_col (ws : Sheet) (r c : Nat) (v : Val) (c' : Nat)
    (h : c' ≠ c) (h1 : 1 ≤ c) (h2 : 1 ≤ c') :
    getCell (setCell ws r c v) r c' = getCell ws r c' := by
  unfold getCell getRow setCell
  rw [setRowIdx_getD_self]
  exact getD_setIdx_other _ _ _ _ (by omega)

theorem rowHasData_false_getD {r : SheetRow} (h : rowHasData r = false) (m : Nat) :
    r.getD m none = none := by
  induction r generalizing m with
  | nil => cases m <;> rfl
  | cons x t ih =>
    simp only [rowHasData, List.any_cons, Bool.or_eq_false_iff] at h
    cases m with
    | zero =>
      cases x with
      | none => rfl
      | some y => simp at h
    | succ m2 =>
      exact ih (by simp [rowHasData, h.2]) m2

/-! ### last_data_row scan lemmas -/

theorem ldr_ge : ∀ (l : Sheet) (k a : Nat), a ≤ k ∨ a ≤ 3 →
    a ≤ (List.enumFrom k l).foldl ldrStep a := by
  intro l
  induction l with
  | nil =>
    intro k a _
    simp [List.enumFrom]
  | cons r t ih =>
    intro k a h
    simp only [List.enumFrom, List.foldl_cons]
    have hstep : (a ≤ ldrStep a (k, r) ∧
        (ldrStep a (k, r) ≤ k + 1 ∨ ldrStep a (k, r) ≤ 3)) := by
      unfold ldrStep
      by_cases hc : 3 ≤ k ∧ rowHasData r = true
      · rw [if_pos hc]
        omega
      · rw [if_neg hc]
        omega
    calc a ≤ ldrStep a (k, r) := hstep.1
      _ ≤ (List.enumFrom (k + 1) t).foldl ldrStep (ldrStep a (k, r)) :=
        ih (k + 1) _ hstep.2

theorem ldr_mem_le : ∀ (l : Sheet) (k a j : Nat), j < l.length → 3 ≤ k + j →
    rowHasData (l.getD j []) = true →
    k + j ≤ (List.enumFrom k l).foldl ldrStep a := by
  intro l
  induction l with
  | nil =>
    intro k a j hj
    simp at hj
  | cons r t ih =>
    intro k a j hj h3 hd
    simp only [List.enumFrom, List.foldl_cons]
    cases j with
    | zero =>
      have hr : rowHasData r = true := by simpa using hd
      have hstep : ldrStep a (k, r) = k := by
        unfold ldrStep
        rw [if_pos ⟨by omega, hr⟩]
      rw [hstep]
      have := ldr_ge t (k + 1) k (Or.inl (by omega))
      omega
    | succ j2 =>
      have hd2 : rowHasData (t.getD j2 []) = true := by simpa using hd
      have := ih (k + 1) (ldrStep a (k, r)) j2 (by simpa using hj) (by omega) hd2
      omega

theorem ldr_cases : ∀ (l : Sheet) (k a : Nat),
    (List.enumFrom k l).foldl ldrStep a = a ∨
    (k ≤ (List.enumFrom k l).foldl ldrStep a ∧
     (List.enumFrom k l).foldl ldrStep a < k + l.length) := by
  intro l
  induction l with
  | nil =>
    intro k a
    simp [List.enumFrom]
  | cons r t ih =>
    intro k a
    simp only [List.enumFrom, List.foldl_cons, List.length_cons]
    have hstep : ldrStep a (k, r) = a ∨ ldrStep a (k, r) = k := by
      unfold ldrStep
      by_cases hc : 3 ≤ k ∧ rowHasData r = true
      · rw [if_pos hc]; right; rfl
      · rw [if_neg hc]; left; rfl
    rcases ih (k + 1) (ldrStep a (k, r)) with h | h
    · rw [h]
      rcases hstep with h2 | h2
      · left; exact h2
      · right
        constructor
        · omega
        · omega
    · right
      omega

theorem lastDataRow_ge_2 (ws : Sheet) : 2 ≤ lastDataRow ws :=
  ldr_ge ws 1 2 (Or.inr (by omega))

theorem lastDataRow_bound (ws : Sheet) :
    lastDataRow ws = 2 ∨ lastDataRow ws ≤ ws.length := by
  rcases ldr_cases ws 1 2 with h | h
  · left; exact h
  · right
    unfold lastDataRow
    omega

theorem lastDataRow_max (ws : Sheet) (j : Nat) (hj : j < ws.length)
    (h3 : 3 ≤ 1 + j) (hd : rowHasData (ws.getD j []) = true) :
    1 + j ≤ lastDataRow ws :=
  ldr_mem_le ws 1 2 j hj h3 hd

/-! ### Clearing lemmas -/

theorem clearDataRows_no_data (ws : Sheet) :
    ∀ j, 2 ≤ j → rowHasData ((clearDataRows ws).getD j []) = false := by
  intro j hj
  unfold clearDataRows
  have hout : ∀ i, ws.length ≤ i → rowHasData (ws.getD i []) = false := by
    intro i hi
    rw [List.getD_eq_getElem?_getD, List.getElem?_eq_none hi]
    rfl
  have hmax : ∀ i, lastDataRow ws < 1 + i →
      rowHasData (ws.getD i []) = false := by
    intro i hi
    by_cases hlen : i < ws.length
    · by_contra hcontra
      have hd : rowHasData (ws.getD i []) = true := by
        cases hval : rowHasData (ws.getD i []) with
        | false => exact absurd hval hcontra
        | true => rfl
      have h2 := lastDataRow_ge_2 ws
      have := lastDataRow_max ws i hlen (by omega) hd
      omega
    · exact hout i (by omega)
  by_cases hlt : 2 < lastDataRow ws
  · rw [if_pos hlt]
    have hle : lastDataRow ws ≤ ws.length := by
      rcases lastDataRow_bound ws with h | h
      · omega
      · exact h
    have htl : (ws.take 2).length = 2 := by
      rw [List.length_take]
      omega
    have happ : (ws.take 2 ++ ws.drop (lastDataRow ws)).getD j [] =
        (ws.drop (lastDataRow ws)).getD (j - 2) [] := by
      rw [List.getD_eq_getElem?_getD, List.getElem?_append, htl]
      rw [if_neg (by omega)]
      rw [← List.getD_eq_getElem?_getD]
    rw [happ]
    have hdrop : (ws.drop (lastDataRow ws)).getD (j - 2) [] =
        ws.getD (lastDataRow ws + (j - 2)) [] := by
      simp [List.getD_eq_getElem?_getD, List.getElem?_drop]
    rw [hdrop]
    exact hmax _ (by omega)
  · rw [if_neg hlt]
    exact hmax j (by omega)

theorem clearDataRows_header (ws : Sheet) (r : Nat) (h1 : 1 ≤ r) (h2 : r ≤ 2) :
    getRow (clearDataRows ws) r = getRow ws r := by
  unfold clearDataRows getRow
  by_cases hlt : 2 < lastDataRow ws
  · rw [if_pos hlt]
    have hle : lastDataRow ws ≤ ws.length := by
      rcases lastDataRow_bound ws with h | h
      · omega
      · exact h
    have hrl : r - 1 < (ws.take 2).length := by
      rw [List.length_take]
      omega
    rw [List.getD_eq_getElem?_getD, List.getElem?_append, if_pos hrl]
    rw [List.getElem?_take, if_pos (show r - 1 < 2 by omega),
      ← List.getD_eq_getElem?_getD]
  · rw [if_neg hlt]

/-! ### Write-loop lemmas -/

theorem lettersVal_pos : ∀ l : List Char, l ≠ [] → 1 ≤ lettersVal l := by
  have aux : ∀ (l : List Char) (a : Nat), 1 ≤ a →
      1 ≤ l.foldl (fun a c => a * 26 + letterDigit c) a := by
    intro l
    induction l with
    | nil => intro a h; simpa using h
    | cons c t ih =>
      intro a h
      simp only [List.foldl_cons]
      exact ih _ (by omega)
  intro l hl
  cases l with
  | nil => exact absurd rfl hl
  | cons c t =>
    show 1 ≤ (c :: t).foldl (fun a c => a * 26 + letterDigit c) 0
    simp only [List.foldl_cons]
    exact aux t _ (by simp [letterDigit])

theorem cifs_pos {s : String} {j : Nat}
    (h : column_index_from_string s = some j) : 1 ≤ j := by
  unfold column_index_from_string at h
  by_cases hc : 1 ≤ (s.data.map upChar).length ∧ (s.data.map upChar).length ≤ 3 ∧
      (s.data.map upChar).all isUpperLetter
  · rw [if_pos hc] at h
    have hj : j = lettersVal (s.data.map upChar) := by
      cases h
      rfl
    rw [hj]
    apply lettersVal_pos
    intro hnil
    rw [hnil] at hc
    simp at hc
  · rw [if_neg hc] at h
    cases h

theorem writeProductRow_cons (ws : Sheet) (r : Nat) (p : String × Val)
    (t : List (String × Val)) :
    writeProductRow ws r (p :: t) =
      writeProductRow (match column_index_from_string p.1 with
        | some idx => setCell ws r idx p.2
        | none => ws) r t := rfl

theorem writeProductRow_getRow_other :
    ∀ (cv : List (String × Val)) (ws : Sheet) (r r' : Nat),
      r' ≠ r → 1 ≤ r → 1 ≤ r' →
      getRow (writeProductRow ws r cv) r' = getRow ws r' := by
  intro cv
  induction cv with
  | nil => intro ws r r' _ _ _; rfl
  | cons p t ih =>
    intro ws r r' h h1 h2
    rw [writeProductRow_cons]
    cases hd : column_index_from_string p.1 with
    | none =>
      rw [ih _ r r' h h1 h2]
    | some idx =>
      rw [ih _ r r' h h1 h2]
      exact getRow_setCell_other ws r idx p.2 r' h h1 h2

theorem getCell_writeProductRow :
    ∀ (cv : List (String × Val)) (ws : Sheet) (r idx : Nat), 1 ≤ r → 1 ≤ idx →
      getCell (writeProductRow ws r cv) r idx =
        match rowWriteAt cv idx with
        | some v => some v
        | none => getCell ws r idx := by
  intro cv
  induction cv with
  | nil => intro ws r idx _ _; rfl
  | cons p t ih =>
    intro ws r idx h1 h2
    rw [writeProductRow_cons, ih _ r idx h1 h2]
    show _ = match (match rowWriteAt t idx with
      | some v => some v
      | none => match column_index_from_string p.1 with
        | some j => if j = idx then some p.2 else none
        | none => none) with
      | some v => some v
      | none => getCell ws r idx
    cases hrw : rowWriteAt t idx with
    | some v => rfl
    | none =>
      cases hd : column_index_from_string p.1 with
      | none => rfl
      | some j =>
        show getCell (setCell ws r j p.2) r idx =
          match (if j = idx then some p.2 else none) with
          | some v => some v
          | none => getCell ws r idx
        by_cases hj : j = idx
        · subst hj
          rw [if_pos rfl]
          exact getCell_setCell_self ws r j p.2
        · rw [if_neg hj]
          exact getCell_setCell_other_col ws r j p.2 idx
            (by omega) (cifs_pos hd) h2

/-! ### Materializer lemmas -/

theorem mat_fold_other :
    ∀ (l : List (List (String × Val))) (k : Nat) (ws : Sheet) (r : Nat),
      1 ≤ r → (∀ j, j < l.length → r ≠ 3 + (k + j)) →
      getRow ((List.enumFrom k l).foldl matStep ws) r = getRow ws r := by
  intro l
  induction l with
  | nil => intro k ws r _ _; rfl
  | cons cv t ih =>
    intro k ws r h1 hno
    simp only [List.enumFrom, List.foldl_cons]
    rw [ih (k + 1) _ r h1 (fun j hj => by
      have := hno (j + 1) (by simpa using hj)
      omega)]
    exact writeProductRow_getRow_other cv ws (3 + k) r
      (by have := hno 0 (by simp); omega) (by omega) h1

theorem mat_fold_cell :
    ∀ (l : List (List (String × Val))) (k : Nat) (ws : Sheet) (i idx : Nat),
      i < l.length → 1 ≤ idx →
      getCell ((List.enumFrom k l).foldl matStep ws) (3 + (k + i)) idx =
        match rowWriteAt (l.getD i []) idx with
        | some v => some v
        | none => getCell ws (3 + (k + i)) idx := by
  intro l
  induction l with
  | nil =>
    intro k ws i idx hi
    simp at hi
  | cons cv t ih =>
    intro k ws i idx hi hidx
    simp only [List.enumFrom, List.foldl_cons]
    cases i with
    | zero =>
      have hrow : getRow ((List.enumFrom (k + 1) t).foldl matStep
          (matStep ws (k, cv))) (3 + (k + 0)) =
          getRow (matStep ws (k, cv)) (3 + (k + 0)) :=
        mat_fold_other t (k + 1) _ (3 + (k + 0)) (by omega)
          (fun j _ => by omega)
      have hcell : getCell ((List.enumFrom (k + 1) t).foldl matStep
          (matStep ws (k, cv))) (3 + (k + 0)) idx =
          getCell (matStep ws (k, cv)) (3 + (k + 0)) idx := by
        unfold getCell
        rw [hrow]
      rw [hcell]
      show getCell (writeProductRow ws (3 + k) cv) (3 + (k + 0)) idx = _
      have hcv : (cv :: t).getD 0 [] = cv := rfl
      rw [hcv]
      have := getCell_writeProductRow cv ws (3 + k) idx (by omega) hidx
      simpa using this
    | succ i2 =>
      have heq : 3 + (k + (i2 + 1)) = 3 + ((k + 1) + i2) := by omega
      rw [heq]
      rw [ih (k + 1) (matStep ws (k, cv)) i2 idx (by simpa using hi) hidx]
      have hgd : (cv :: t).getD (i2 + 1) [] = t.getD i2 [] := rfl
      rw [hgd]
      have hother : getCell (matStep ws (k, cv)) (3 + ((k + 1) + i2)) idx =
          getCell ws (3 + ((k + 1) + i2)) idx := by
        show getCell (writeProductRow ws (3 + k) cv) (3 + ((k + 1) + i2)) idx =
          getCell ws (3 + ((k + 1) + i2)) idx
        unfold getCell
        rw [writeProductRow_getRow_other cv ws (3 + k) (3 + ((k + 1) + i2))
          (by omega) (by omega) (by omega)]
      rw [hother]

/-- C1 counterexample: with a one-header-row template (H = 1, one data
row), materializing one product neither removes the original data row nor
writes the product at row H + 1 = 2: the original survives at row 2 and
the product lands at row 3, leaving two data rows instead of one.  The
code hard-wires two header rows; "one or two, per platform convention"
fails for H = 1. -/
theorem C1_counterexample :
    materialize [[some "h"], [some "d"]] [[("A", "p")]] =
      [[some "h"], [some "d"], [some "p"]] ∧
    getRow (materialize [[some "h"], [some "d"]] [[("A", "p")]]) 2 =
      [some "d"] ∧
    rowHasData (getRow (materialize [[some "h"], [some "d"]] [[("A", "p")]]) 2)
      = true ∧
    rowHasData (getRow (materialize [[some "h"], [some "d"]] [[("A", "p")]]) 3)
      = true :=
  ⟨rfl, rfl, rfl, rfl⟩

/-- C1 (amended): the header region is hard-wired to exactly two leading
rows (H = 2).  For every template and product list: the two header rows
are never modified; product i (0-based) occupies data row 3 + i, each of
its cells holding exactly the last value written to that decoded column
(and nothing else — all original data rows are gone); and every row beyond
row 2 + M is empty, so no original data row survives regardless of whether
M is smaller than, equal to, or larger than the original data row count. -/
theorem C1_two_header_rows (ws : Sheet) (prows : List (List (String × Val))) :
    (getRow (materialize ws prows) 1 = getRow ws 1 ∧
     getRow (materialize ws prows) 2 = getRow ws 2) ∧
    (∀ i, i < prows.length → ∀ idx, 1 ≤ idx →
      getCell (materialize ws prows) (3 + i) idx =
        rowWriteAt (prows.getD i []) idx) ∧
    (∀ r, 2 + prows.length < r →
      rowHasData (getRow (materialize ws prows) r) = false) := by
  have henum : prows.enum = List.enumFrom 0 prows := rfl
  refine ⟨⟨?_, ?_⟩, ?_, ?_⟩
  · show getRow (prows.enum.foldl matStep (clearDataRows ws)) 1 = getRow ws 1
    rw [henum, mat_fold_other prows 0 _ 1 (by omega) (fun j _ => by omega)]
    exact clearDataRows_header ws 1 (by omega) (by omega)
  · show getRow (prows.enum.foldl matStep (clearDataRows ws)) 2 = getRow ws 2
    rw [henum, mat_fold_other prows 0 _ 2 (by omega) (fun j _ => by omega)]
    exact clearDataRows_header ws 2 (by omega) (by omega)
  · intro i hi idx hidx
    show getCell (prows.enum.foldl matStep (clearDataRows ws)) (3 + i) idx = _
    have h3i : 3 + i = 3 + (0 + i) := by omega
    rw [henum, h3i, mat_fold_cell prows 0 _ i idx hi hidx]
    have hclear : getCell (clearDataRows ws) (3 + (0 + i)) idx = none := by
      unfold getCell getRow
      rw [rowHasData_false_getD (clearDataRows_no_data ws (3 + (0 + i) - 1)
        (by omega))]
    rw [hclear]
    cases rowWriteAt (prows.getD i []) idx <;> rfl
  · intro r hr
    show rowHasData (getRow (prows.enum.foldl matStep (clearDataRows ws)) r)
      = false
    rw [henum, mat_fold_other prows 0 _ r (by omega) (fun j hj => by omega)]
    exact clearDataRows_no_data ws (r - 1) (by omega)

/-- Witness for C1 (amended): a concrete two-header template with one old
data row, materializing one product. -/
theorem C1_witness :
    getCell (materialize [[some "h1"], [some "h2"], [some "old"]]
      [[("A", "x")]]) 3 1 =
      rowWriteAt ([[("A", "x")]].getD 0 []) 1 ∧
    rowHasData (getRow (materialize [[some "h1"], [some "h2"], [some "old"]]
      [[("A", "x")]]) 4) = false ∧
    getRow (materialize [[some "h1"], [some "h2"], [some "old"]]
      [[("A", "x")]]) 2 = getRow [[some "h1"], [some "h2"], [some "old"]] 2 :=
  ⟨(C1_two_header_rows [[some "h1"], [some "h2"], [some "old"]]
      [[("A", "x")]]).2.1 0 (by decide) 1 (by decide),
   (C1_two_header_rows [[some "h1"], [some "h2"], [some "old"]]
      [[("A", "x")]]).2.2 4 (by decide),
   (C1_two_header_rows [[some "h1"], [some "h2"], [some "old"]]
      [[("A", "x")]]).1.2⟩

/-- C8: a resolved pair whose column address does not decode is skipped
with no other effect: materialization equals materialization with the
undecodable pairs removed, so the remaining cells of the row, the
remaining products and the run as a whole are untouched (and the embedded
write loop is total — nothing propagates). -/
theorem C8_invalid_address_skipped (ws : Sheet)
    (prows : List (List (String × Val))) :
    materialize ws prows = materialize ws (prows.map (fun cv =>
      cv.filter (fun p => (column_index_from_string p.1).isSome))) := by
  have hwp : ∀ (cv : List (String × Val)) (acc : Sheet) (r : Nat),
      writeProductRow acc r (cv.filter
        (fun p => (column_index_from_string p.1).isSome)) =
      writeProductRow acc r cv := by
    intro cv
    induction cv with
    | nil => intro acc r; rfl
    | cons p t ih =>
      intro acc r
      cases hd : column_index_from_string p.1 with
      | none =>
        rw [writeProductRow_cons, hd]
        have hfil : (p :: t).filter
            (fun p => (column_index_from_string p.1).isSome) =
            t.filter (fun p => (column_index_from_string p.1).isSome) := by
          simp [List.filter_cons, hd]
        rw [hfil, ih]
      | some idx =>
        have hfil : (p :: t).filter
            (fun p => (column_index_from_string p.1).isSome) =
            p :: t.filter (fun p => (column_index_from_string p.1).isSome) := by
          simp [List.filter_cons, hd]
        rw [hfil, writeProductRow_cons, writeProductRow_cons, hd, ih]
  unfold materialize
  rw [List.enum_map, List.foldl_map]
  apply List.foldl_ext
  intro acc b _
  show matStep acc b = matStep acc (Prod.map id _ b)
  unfold matStep
  cases b with
  | mk i cv =>
    simp only [Prod.map]
    rw [hwp]
    rfl

/-! ### Association-list and dict-update lemmas -/

theorem alookup_cons {α : Type} (a : String × α) (t : List (String × α))
    (k : String) :
    alookup (a :: t) k = if a.1 = k then some a.2 else alookup t k := by
  unfold alookup
  by_cases h : a.1 = k
  · rw [List.find?_cons_of_pos _ (by simp [h]), if_pos h]
    rfl
  · rw [List.find?_cons_of_neg _ (by simp [h]), if_neg h]

theorem alookup_mem {α : Type} {l : List (String × α)} {k : String} {v : α}
    (h : alookup l k = some v) : (k, v) ∈ l := by
  induction l with
  | nil => cases h
  | cons a t ih =>
    rw [alookup_cons] at h
    by_cases hk : a.1 = k
    · rw [if_pos hk] at h
      injection h with h2
      have : a = (k, v) := by
        cases a
        simp only at hk h2
        rw [hk, h2]
      rw [← this]
      exact List.mem_cons_self a t
    · rw [if_neg hk] at h
      exact List.mem_cons_of_mem a (ih h)

theorem alookup_eq_none_iff {α : Type} (l : List (String × α)) (k : String) :
    alookup l k = none ↔ ∀ x ∈ l, x.1 ≠ k := by
  induction l with
  | nil => simp [alookup]
  | cons a t ih =>
    rw [alookup_cons]
    by_cases h : a.1 = k
    · rw [if_pos h]
      simp [h]
    · rw [if_neg h]
      rw [ih]
      constructor
      · intro hh x hx
        rcases List.mem_cons.mp hx with rfl | hx2
        · exact h
        · exact hh x hx2
      · intro hh x hx
        exact hh x (List.mem_cons_of_mem a hx)

theorem alookup_append_left {α : Type} {l : List (String × α)} {k : String}
    {v : α} (m : List (String × α)) (h : alookup l k = some v) :
    alookup (l ++ m) k = some v := by
  induction l with
  | nil => cases h
  | cons a t ih =>
    rw [alookup_cons] at h
    rw [List.cons_append, alookup_cons]
    by_cases hk : a.1 = k
    · rw [if_pos hk] at h ⊢
      exact h
    · rw [if_neg hk] at h ⊢
      exact ih h

theorem alookup_append_right {α : Type} {l : List (String × α)} {k : String}
    (m : List (String × α)) (h : alookup l k = none) :
    alookup (l ++ m) k = alookup m k := by
  induction l with
  | nil => rfl
  | cons a t ih =>
    rw [alookup_cons] at h
    rw [List.cons_append, alookup_cons]
    by_cases hk : a.1 = k
    · rw [if_pos hk] at h
      cases h
    · rw [if_neg hk] at h ⊢
      exact ih h

theorem alookup_map_replace_other {α : Type} (l : List (String × α))
    (k : String) (v : α) (k' : String) (h : k' ≠ k) :
    alookup (l.map (fun p => if p.1 = k then (k, v) else p)) k' =
      alookup l k' := by
  induction l with
  | nil => rfl
  | cons a t ih =>
    by_cases hk : a.1 = k
    · rw [List.map_cons, if_pos hk, alookup_cons, alookup_cons]
      rw [if_neg (show ¬((k, v).1 = k') from fun hc => h (hc.symm))]
      rw [if_neg (show ¬(a.1 = k') from fun hc => h (by rw [← hc, hk]))]
      exact ih
    · rw [List.map_cons, if_neg hk, alookup_cons, alookup_cons]
      by_cases ha : a.1 = k'
      · rw [if_pos ha, if_pos ha]
      · rw [if_neg ha, if_neg ha]
        exact ih

theorem alookup_map_replace_found {α : Type} (l : List (String × α))
    (k : String) (v : α) (hfound : l.any (fun p => p.1 = k) = true) :
    alookup (l.map (fun p => if p.1 = k then (k, v) else p)) k = some v := by
  induction l with
  | nil => simp at hfound
  | cons a t ih =>
    by_cases hk : a.1 = k
    · rw [List.map_cons, if_pos hk, alookup_cons, if_pos rfl]
    · rw [List.map_cons, if_neg hk, alookup_cons, if_neg hk]
      apply ih
      simp only [List.any_cons, Bool.or_eq_true] at hfound
      rcases hfound with h1 | h1
      · exact absurd (by simpa using h1) hk
      · exact h1

theorem alookup_dictInsert_self {α : Type} (l : List (String × α))
    (k : String) (v : α) : alookup (dictInsert l k v) k = some v := by
  unfold dictInsert
  by_cases h : l.any (fun p => p.1 = k) = true
  · rw [if_pos h]
    exact alookup_map_replace_found l k v h
  · rw [if_neg h]
    have halk : alookup l k = none := by
      rw [alookup_eq_none_iff]
      intro x hx hxk
      exact h (List.any_eq_true.mpr ⟨x, hx, by simp [hxk]⟩)
    rw [alookup_append_right _ halk, alookup_cons, if_pos rfl]

theorem alookup_dictInsert_other {α : Type} (l : List (String × α))
    (k : String) (v : α) (k' : String) (h : k' ≠ k) :
    alookup (dictInsert l k v) k' = alookup l k' := by
  unfold dictInsert
  by_cases hany : l.any (fun p => p.1 = k) = true
  · rw [if_pos hany]
    exact alookup_map_replace_other l k v k' h
  · rw [if_neg hany]
    cases hlk : alookup l k' with
    | some w => rw [alookup_append_left _ hlk]
    | none =>
      rw [alookup_append_right _ hlk, alookup_cons]
      rw [if_neg (show ¬((k, v).1 = k') from fun hc => h (hc.symm))]
      rfl

theorem dictInsert_keys {α : Type} (l : List (String × α)) (k : String)
    (v : α) :
    (dictInsert l k v).map Prod.fst =
      if l.any (fun p => p.1 = k) = true then l.map Prod.fst
      else l.map Prod.fst ++ [k] := by
  unfold dictInsert
  by_cases h : l.any (fun p => p.1 = k) = true
  · rw [if_pos h, if_pos h, List.map_map]
    apply List.map_congr_left
    intro p _
    by_cases hp : p.1 = k
    · simp [hp]
    · simp [hp]
  · rw [if_neg h, if_neg h]
    simp

theorem dictInsert_keys_nodup {α : Type} {l : List (String × α)} {k : String}
    {v : α} (h : (l.map Prod.fst).Nodup) :
    ((dictInsert l k v).map Prod.fst).Nodup := by
  rw [dictInsert_keys]
  by_cases hany : l.any (fun p => p.1 = k) = true
  · rw [if_pos hany]
    exact h
  · rw [if_neg hany]
    rw [List.nodup_append]
    refine ⟨h, List.nodup_singleton k, ?_⟩
    intro a ha hk
    have hak : a = k := by simpa using hk
    rcases List.mem_map.mp ha with ⟨p, hp, hpa⟩
    exact hany (List.any_eq_true.mpr ⟨p, hp, by simp [hpa, hak]⟩)

/-! ### Characterizing the per-product destination map -/

theorem transform_no_writer (product : Product) (platform : String)
    (attrs : Attrs) (c : String) :
    ∀ (l : Mapping) (acc : List (String × Val)),
      (∀ p ∈ l, alookup p.2.columns platform ≠ some c) →
      alookup (l.foldl (tstep product platform attrs) acc) c = alookup acc c := by
  intro l
  induction l with
  | nil => intro acc _; rfl
  | cons pc t ih =>
    intro acc hno
    simp only [List.foldl_cons]
    have hstep : alookup (tstep product platform attrs acc pc) c =
        alookup acc c := by
      unfold tstep
      cases hcol : alookup pc.2.columns platform with
      | none => rfl
      | some col =>
        cases hres : resolve_value pc.1 pc.2 product platform attrs with
        | none => rfl
        | some v =>
          have hcol_ne : col ≠ c := by
            intro hc
            exact hno pc (List.mem_cons_self pc t) (by rw [hcol, hc])
          exact alookup_dictInsert_other acc col v c (fun hc => hcol_ne hc.symm)
    rw [ih _ (fun p hp => hno p (List.mem_cons_of_mem pc hp)), hstep]

theorem alookup_split {α : Type} {l : List (String × α)} {k : String} {v : α}
    (h : alookup l k = some v) :
    ∃ l1 l2, l = l1 ++ (k, v) :: l2 ∧ ∀ p ∈ l1, p.1 ≠ k := by
  induction l with
  | nil => cases h
  | cons a t ih =>
    rw [alookup_cons] at h
    by_cases hk : a.1 = k
    · rw [if_pos hk] at h
      injection h with h2
      refine ⟨[], t, ?_, by simp⟩
      have : a = (k, v) := by
        cases a
        simp only at hk h2
        rw [hk, h2]
      rw [this]
      rfl
    · rw [if_neg hk] at h
      obtain ⟨l1, l2, hsplit, hl1⟩ := ih h
      refine ⟨a :: l1, l2, by rw [hsplit]; rfl, ?_⟩
      intro p hp
      rcases List.mem_cons.mp hp with rfl | hp2
      · exact hk
      · exact hl1 p hp2

/-- If exactly one mapping row (keyed `name`, unique by table key-nodup)
targets destination `c` for this platform, the transformed product's value
at `c` is that row's resolved value. -/
theorem transform_unique_writer (product : Product) (platform : String)
    (attrs : Attrs) (mapping : Mapping) (name : String) (cfg : AttrConfig)
    (c : String)
    (hfound : alookup mapping name = some cfg)
    (hnodup : (mapping.map Prod.fst).Nodup)
    (hcol : alookup cfg.columns platform = some c)
    (hother : ∀ p ∈ mapping, p.1 ≠ name →
      alookup p.2.columns platform ≠ some c) :
    alookup (transform_product product platform mapping attrs) c =
      resolve_value name cfg product platform attrs := by
  obtain ⟨l1, l2, hsplit, hl1⟩ := alookup_split hfound
  subst hsplit
  unfold transform_product
  rw [List.foldl_append, List.foldl_cons]
  have hacc1 : alookup (l1.foldl (tstep product platform attrs) []) c = none := by
    rw [transform_no_writer product platform attrs c l1 []
      (fun p hp => hother p (by simp [hp]) (hl1 p hp))]
    rfl
  have hl2 : ∀ p ∈ l2, alookup p.2.columns platform ≠ some c := by
    intro p hp
    apply hother p (by simp [hp])
    have hnd2 : (((name, cfg) :: l2).map Prod.fst).Nodup := by
      rw [List.map_append] at hnodup
      exact hnodup.of_append_right
    rw [List.map_cons, List.nodup_cons] at hnd2
    intro hpn
    exact hnd2.1 (List.mem_map.mpr ⟨p, hp, by simp [hpn]⟩)
  rw [transform_no_writer product platform attrs c l2 _ hl2]
  have htsq : tstep product platform attrs
      (l1.foldl (tstep product platform attrs) []) (name, cfg) =
      match alookup cfg.columns platform with
      | none => l1.foldl (tstep product platform attrs) []
      | some col =>
        match resolve_value name cfg product platform attrs with
        | none => l1.foldl (tstep product platform attrs) []
        | some v => dictInsert (l1.foldl (tstep product platform attrs) []) col v
      := rfl
  rw [htsq, hcol]
  cases hres : resolve_value name cfg product platform attrs with
  | none => exact hacc1
  | some v => exact alookup_dictInsert_self _ c v

/-! ### The two post-processing rules, case by case -/

theorem ean_rule_id_no_ean {product : Product} {platform : String}
    {mapping : Mapping} (cv : List (String × Val))
    (h : alookup product "ean" = none) :
    apply_ean_rule product platform mapping cv = cv := by
  unfold apply_ean_rule
  rw [h]

theorem ean_rule_id_no_sku {product : Product} {platform : String}
    {mapping : Mapping} {e : Val} (cv : List (String × Val))
    (he : alookup product "ean" = some e)
    (h : alookup mapping "shop_sku" = none) :
    apply_ean_rule product platform mapping cv = cv := by
  unfold apply_ean_rule
  rw [he, h]

theorem ean_rule_id_no_col {product : Product} {platform : String}
    {mapping : Mapping} {e : Val} {cfg : AttrConfig} (cv : List (String × Val))
    (he : alookup product "ean" = some e)
    (hs : alookup mapping "shop_sku" = some cfg)
    (hc : alookup cfg.columns platform = none) :
    apply_ean_rule product platform mapping cv = cv := by
  unfold apply_ean_rule
  rw [he, hs]
  show (match alookup cfg.columns platform with
    | none => cv
    | some col => dictInsert cv col e) = cv
  rw [hc]

theorem ean_rule_writes {product : Product} {platform : String}
    {mapping : Mapping} {e : Val} {cfg : AttrConfig} {c : String}
    (cv : List (String × Val))
    (he : alookup product "ean" = some e)
    (hs : alookup mapping "shop_sku" = some cfg)
    (hc : alookup cfg.columns platform = some c) :
    apply_ean_rule product platform mapping cv = dictInsert cv c e := by
  unfold apply_ean_rule
  rw [he, hs]
  show (match alookup cfg.columns platform with
    | none => cv
    | some col => dictInsert cv col e) = dictInsert cv c e
  rw [hc]

theorem alias_rule_id_not_mapped {product : Product} {platform : String}
    {mapping : Mapping} (cv : List (String × Val))
    (h : alookup mapping "desciption_fr" = none) :
    apply_alias_rule product platform mapping cv = cv := by
  unfold apply_alias_rule
  rw [h]

theorem alias_rule_id_no_col {product : Product} {platform : String}
    {mapping : Mapping} {cfg : AttrConfig} (cv : List (String × Val))
    (h : alookup mapping "desciption_fr" = some cfg)
    (hc : alookup cfg.columns platform = none) :
    apply_alias_rule product platform mapping cv = cv := by
  unfold apply_alias_rule
  rw [h]
  show (match alookup cfg.columns platform with
    | none => cv
    | some col =>
      match alookup product "description_fr" with
      | some w => dictInsert cv col w
      | none =>
        match alookup product "desciption_fr" with
        | some w => dictInsert cv col w
        | none => cv) = cv
  rw [hc]

theorem alias_rule_desc {product : Product} {platform : String}
    {mapping : Mapping} {cfg : AttrConfig} {c : String} {v : Val}
    (cv : List (String × Val))
    (h : alookup mapping "desciption_fr" = some cfg)
    (hc : alookup cfg.columns platform = some c)
    (hd : alookup product "description_fr" = some v) :
    apply_alias_rule product platform mapping cv = dictInsert cv c v := by
  unfold apply_alias_rule
  rw [h]
  show (match alookup cfg.columns platform with
    | none => cv
    | some col =>
      match alookup product "description_fr" with
      | some w => dictInsert cv col w
      | none =>
        match alookup product "desciption_fr" with
        | some w => dictInsert cv col w
        | none => cv) = dictInsert cv c v
  rw [hc]
  show (match alookup product "description_fr" with
    | some w => dictInsert cv c w
    | none =>
      match alookup product "desciption_fr" with
      | some w => dictInsert cv c w
      | none => cv) = dictInsert cv c v
  rw [hd]

theorem alias_rule_missp {product : Product} {platform : String}
    {mapping : Mapping} {cfg : AttrConfig} {c : String} {v : Val}
    (cv : List (String × Val))
    (h : alookup mapping "desciption_fr" = some cfg)
    (hc : alookup cfg.columns platform = some c)
    (hd : alookup product "description_fr" = none)
    (hm : alookup product "desciption_fr" = some v) :
    apply_alias_rule product platform mapping cv = dictInsert cv c v := by
  unfold apply_alias_rule
  rw [h]
  show (match alookup cfg.columns platform with
    | none => cv
    | some col =>
      match alookup product "description_fr" with
      | some w => dictInsert cv col w
      | none =>
        match alookup product "desciption_fr" with
        | some w => dictInsert cv col w
        | none => cv) = dictInsert cv c v
  rw [hc]
  show (match alookup product "description_fr" with
    | some w => dictInsert cv c w
    | none =>
      match alookup product "desciption_fr" with
      | some w => dictInsert cv c w
      | none => cv) = dictInsert cv c v
  rw [hd, hm]

theorem alias_rule_id_no_val {product : Product} {platform : String}
    {mapping : Mapping} {cfg : AttrConfig} {c : String}
    (cv : List (String × Val))
    (h : alookup mapping "desciption_fr" = some cfg)
    (hc : alookup cfg.columns platform = some c)
    (hd : alookup product "description_fr" = none)
    (hm : alookup product "desciption_fr" = none) :
    apply_alias_rule product platform mapping cv = cv := by
  unfold apply_alias_rule
  rw [h]
  show (match alookup cfg.columns platform with
    | none => cv
    | some col =>
      match alookup product "description_fr" with
      | some w => dictInsert cv col w
      | none =>
        match alookup product "desciption_fr" with
        | some w => dictInsert cv col w
        | none => cv) = cv
  rw [hc]
  show (match alookup product "description_fr" with
    | some w => dictInsert cv c w
    | none =>
      match alookup product "desciption_fr" with
      | some w => dictInsert cv c w
      | none => cv) = cv
  rw [hd, hm]

/-! ### The last write to a decoded column -/

theorem rowWriteAt_cons (p : String × Val) (t : List (String × Val))
    (idx : Nat) :
    rowWriteAt (p :: t) idx =
      match rowWriteAt t idx with
      | some v => some v
      | none =>
        match column_index_from_string p.1 with
        | some j => if j = idx then some p.2 else none
        | none => none := rfl

theorem rowWriteAt_no_match (idx : Nat) :
    ∀ t : List (String × Val),
      (∀ q ∈ t, column_index_from_string q.1 ≠ some idx) →
      rowWriteAt t idx = none := by
  intro t
  induction t with
  | nil => intro _; rfl
  | cons q t2 ih =>
    intro h
    rw [rowWriteAt_cons, ih (fun x hx => h x (List.mem_cons_of_mem q hx))]
    cases hd : column_index_from_string q.1 with
    | none => rfl
    | some j =>
      show (if j = idx then some q.2 else none) = none
      rw [if_neg (fun hj => h q (List.mem_cons_self q t2) (by rw [hd, hj]))]

theorem rowWriteAt_unique (cv : List (String × Val)) (idx : Nat) (c : String)
    (e : Val) (hnd : (cv.map Prod.fst).Nodup)
    (hdec : column_index_from_string c = some idx)
    (hlk : alookup cv c = some e)
    (hun : ∀ q ∈ cv, column_index_from_string q.1 = some idx → q.1 = c) :
    rowWriteAt cv idx = some e := by
  induction cv with
  | nil => cases hlk
  | cons p t ih =>
    rw [alookup_cons] at hlk
    rw [List.map_cons, List.nodup_cons] at hnd
    by_cases hp : p.1 = c
    · rw [if_pos hp] at hlk
      injection hlk with hpe
      have hnott : ∀ q ∈ t, q.1 ≠ c := by
        intro q hq hqc
        exact hnd.1 (List.mem_map.mpr ⟨q, hq, by rw [hqc, ← hp]⟩)
      have htail : rowWriteAt t idx = none :=
        rowWriteAt_no_match idx t (fun q hq hdq =>
          hnott q hq (hun q (List.mem_cons_of_mem p hq) hdq))
      rw [rowWriteAt_cons, htail]
      show (match column_index_from_string p.1 with
        | some j => if j = idx then some p.2 else none
        | none => none) = some e
      rw [hp, hdec]
      show (if idx = idx then some p.2 else none) = some e
      rw [if_pos rfl, hpe]
    · rw [if_neg hp] at hlk
      have := ih hnd.2 hlk
        (fun q hq hdq => hun q (List.mem_cons_of_mem p hq) hdq)
      rw [rowWriteAt_cons, this]

/-! ### Keys of the destination map are distinct -/

theorem transform_keys_nodup (product : Product) (platform : String)
    (mapping : Mapping) (attrs : Attrs) :
    ((transform_product product platform mapping attrs).map Prod.fst).Nodup := by
  unfold transform_product
  refine foldl_preserves
    (fun (acc : List (String × Val)) => (acc.map Prod.fst).Nodup) _ ?_
    mapping [] (by simp)
  intro acc pc h
  unfold tstep
  cases alookup pc.2.columns platform with
  | none => exact h
  | some col =>
    cases resolve_value pc.1 pc.2 product platform attrs with
    | none => exact h
    | some v => exact dictInsert_keys_nodup h

theorem column_values_keys_nodup (product : Product) (platform : String)
    (mapping : Mapping) (attrs : Attrs) :
    ((column_values product platform mapping attrs).map Prod.fst).Nodup := by
  unfold column_values
  have h1 := transform_keys_nodup product platform mapping attrs
  have h2 : ∀ cv : List (String × Val), (cv.map Prod.fst).Nodup →
      ((apply_ean_rule product platform mapping cv).map Prod.fst).Nodup := by
    intro cv h
    unfold apply_ean_rule
    cases alookup product "ean" with
    | none => exact h
    | some e =>
      show ((match alookup mapping "shop_sku" with
        | none => cv
        | some cfg =>
          match alookup cfg.columns platform with
          | none => cv
          | some col => dictInsert cv col e).map Prod.fst).Nodup
      cases alookup mapping "shop_sku" with
      | none => exact h
      | some cfg =>
        show ((match alookup cfg.columns platform with
          | none => cv
          | some col => dictInsert cv col e).map Prod.fst).Nodup
        cases alookup cfg.columns platform with
        | none => exact h
        | some col => exact dictInsert_keys_nodup h
  have h3 : ∀ cv : List (String × Val), (cv.map Prod.fst).Nodup →
      ((apply_alias_rule product platform mapping cv).map Prod.fst).Nodup := by
    intro cv h
    unfold apply_alias_rule
    cases alookup mapping "desciption_fr" with
    | none => exact h
    | some cfg =>
      show ((match alookup cfg.columns platform with
        | none => cv
        | some col =>
          match alookup product "description_fr" with
          | some w => dictInsert cv col w
          | none =>
            match alookup product "desciption_fr" with
            | some w => dictInsert cv col w
            | none => cv).map Prod.fst).Nodup
      cases alookup cfg.columns platform with
      | none => exact h
      | some col =>
        cases alookup product "description_fr" with
        | some w => exact dictInsert_keys_nodup h
        | none =>
          cases alookup product "desciption_fr" with
          | some w => exact dictInsert_keys_nodup h
          | none => exact h
  exact h3 _ (h2 _ h1)

/-! ### C3: the EAN / shop-SKU overwrite rule -/

/-- C3 counterexample: with `shop_sku` and the misspelled description
attribute both mapped to column B, a product carrying both an `ean` and a
`description_fr` ends with the description value at the SKU destination,
because the misspelling rule runs after the EAN rule: the materialized row
does not contain the identifier value there. -/
theorem C3_counterexample :
    alookup (column_values [("ean", "E"), ("description_fr", "D")] "P"
      [("shop_sku", ⟨"same", "input_file", [("P", "B")]⟩),
       ("desciption_fr", ⟨"same", "input_file", [("P", "B")]⟩)]
      ⟨[], []⟩) "B" = some "D" ∧ ("D" : Val) ≠ "E" :=
  ⟨rfl, by decide⟩

/-- C3 (amended): if the product carries a (non-empty) `ean` and
`shop_sku` has a destination `c` on this platform, the destination map and
hence the product's materialized row hold the identifier value at `c`,
overwriting whatever generic resolution placed there — provided the
misspelled-description compatibility rule (which runs later) does not also
target `c` with a description value, and (for the cell) `c` is the only
resolved address decoding to its column index. -/
theorem C3_ean_overwrites_shop_sku (product : Product) (platform : String)
    (mapping : Mapping) (attrs : Attrs) (e : Val) (skuCfg : AttrConfig)
    (c : String) (idx : Nat)
    (hean : alookup product "ean" = some e) (_hne : e ≠ "")
    (hsku : alookup mapping "shop_sku" = some skuCfg)
    (hcol : alookup skuCfg.columns platform = some c)
    (halias : ∀ cfg, alookup mapping "desciption_fr" = some cfg →
      alookup cfg.columns platform = some c →
      alookup product "description_fr" = none ∧
      alookup product "desciption_fr" = none)
    (hvalid : column_index_from_string c = some idx)
    (hunique : ∀ q ∈ column_values product platform mapping attrs,
      column_index_from_string q.1 = some idx → q.1 = c) :
    alookup (column_values product platform mapping attrs) c = some e ∧
    rowWriteAt (column_values product platform mapping attrs) idx = some e := by
  have hdict : alookup (column_values product platform mapping attrs) c
      = some e := by
    unfold column_values
    rw [ean_rule_writes _ hean hsku hcol]
    cases hal : alookup mapping "desciption_fr" with
    | none =>
      rw [alias_rule_id_not_mapped _ hal]
      exact alookup_dictInsert_self _ c e
    | some cfg =>
      cases hac : alookup cfg.columns platform with
      | none =>
        rw [alias_rule_id_no_col _ hal hac]
        exact alookup_dictInsert_self _ c e
      | some col =>
        by_cases hcc : col = c
        · obtain ⟨hd1, hd2⟩ := halias cfg hal (by rw [hac, hcc])
          rw [alias_rule_id_no_val _ hal hac hd1 hd2]
          exact alookup_dictInsert_self _ c e
        · cases hd : alookup product "description_fr" with
          | some v =>
            rw [alias_rule_desc _ hal hac hd,
              alookup_dictInsert_other _ col v c (fun h => hcc h.symm)]
            exact alookup_dictInsert_self _ c e
          | none =>
            cases hm : alookup product "desciption_fr" with
            | some v =>
              rw [alias_rule_missp _ hal hac hd hm,
                alookup_dictInsert_other _ col v c (fun h => hcc h.symm)]
              exact alookup_dictInsert_self _ c e
            | none =>
              rw [alias_rule_id_no_val _ hal hac hd hm]
              exact alookup_dictInsert_self _ c e
  exact ⟨hdict, rowWriteAt_unique _ idx c e
    (column_values_keys_nodup product platform mapping attrs) hvalid hdict
    hunique⟩

/-- Witness for C3 (amended): the specification's end-to-end scenario — a
static-table value resolved to column B, then overwritten by the EAN. -/
theorem C3_witness :
    alookup (column_values [("ean", "E123")] "P"
      [("color", ⟨"same", "punch_card", [("P", "B")]⟩),
       ("shop_sku", ⟨"same", "input_file", [("P", "B")]⟩)]
      ⟨[("color", "RED")], []⟩) "B" = some "E123" ∧
    rowWriteAt (column_values [("ean", "E123")] "P"
      [("color", ⟨"same", "punch_card", [("P", "B")]⟩),
       ("shop_sku", ⟨"same", "input_file", [("P", "B")]⟩)]
      ⟨[("color", "RED")], []⟩) 2 = some "E123" :=
  C3_ean_overwrites_shop_sku [("ean", "E123")] "P"
    [("color", ⟨"same", "punch_card", [("P", "B")]⟩),
     ("shop_sku", ⟨"same", "input_file", [("P", "B")]⟩)]
    ⟨[("color", "RED")], []⟩ "E123" ⟨"same", "input_file", [("P", "B")]⟩ "B" 2
    rfl (by decide) rfl rfl (fun cfg h _ => nomatch h) rfl (by decide)

/-! ### C4: the description-spelling compatibility rule -/

theorem resolve_value_description (cfg : AttrConfig) (product : Product)
    (platform : String) (attrs : Attrs)
    (hds : cfg.data_source = "input_file") :
    resolve_value "description_fr" cfg product platform attrs =
      match alookup product "description_fr" with
      | some v => some v
      | none => alookup product "desciption_fr" := by
  unfold resolve_value
  rw [hds, if_neg (by decide), if_pos rfl]
  cases alookup product "description_fr" with
  | some v => rfl
  | none =>
    show (if ("description_fr" : String) = "desciption_fr" then
        alookup product "description_fr"
      else if ("description_fr" : String) = "description_fr" then
        alookup product "desciption_fr"
      else none) = alookup product "desciption_fr"
    rw [if_neg (by decide), if_pos rfl]

/-- Neither post-processing rule writes to destination `c` when no mapping
row other than the canonical description row targets `c`. -/
theorem post_rules_preserve (product : Product) (platform : String)
    (mapping : Mapping) (c : String) (cv : List (String × Val))
    (hother : ∀ p ∈ mapping, p.1 ≠ "description_fr" →
      alookup p.2.columns platform ≠ some c) :
    alookup (apply_alias_rule product platform mapping
      (apply_ean_rule product platform mapping cv)) c = alookup cv c := by
  have hean : alookup (apply_ean_rule product platform mapping cv) c =
      alookup cv c := by
    cases he : alookup product "ean" with
    | none => rw [ean_rule_id_no_ean _ he]
    | some e =>
      cases hs : alookup mapping "shop_sku" with
      | none => rw [ean_rule_id_no_sku _ he hs]
      | some cfg2 =>
        cases hc2 : alookup cfg2.columns platform with
        | none => rw [ean_rule_id_no_col _ he hs hc2]
        | some col2 =>
          rw [ean_rule_writes _ he hs hc2]
          apply alookup_dictInsert_other
          intro hcc
          exact hother ("shop_sku", cfg2) (alookup_mem hs)
            (by show ("shop_sku" : String) ≠ "description_fr"; decide)
            (by rw [hc2, hcc])
  cases ha : alookup mapping "desciption_fr" with
  | none =>
    rw [alias_rule_id_not_mapped _ ha]
    exact hean
  | some cfg3 =>
    cases hc3 : alookup cfg3.columns platform with
    | none =>
      rw [alias_rule_id_no_col _ ha hc3]
      exact hean
    | some col3 =>
      have hcol3 : col3 ≠ c := by
        intro hcc
        exact hother ("desciption_fr", cfg3) (alookup_mem ha)
          (by show ("desciption_fr" : String) ≠ "description_fr"; decide)
          (by rw [hc3, hcc])
      cases hdp : alookup product "description_fr" with
      | some v2 =>
        rw [alias_rule_desc _ ha hc3 hdp,
          alookup_dictInsert_other _ col3 v2 c (fun h => hcol3 h.symm)]
        exact hean
      | none =>
        cases hmp : alookup product "desciption_fr" with
        | some v2 =>
          rw [alias_rule_missp _ ha hc3 hdp hmp,
            alookup_dictInsert_other _ col3 v2 c (fun h => hcol3 h.symm)]
          exact hean
        | none =>
          rw [alias_rule_id_no_val _ ha hc3 hdp hmp]
          exact hean

/-- C4 counterexample: mapping the canonical `description_fr` and
`shop_sku` to the same column B, a product with only the misspelled value
and an `ean` ends with the EAN at B (the identifier rule overwrites the
alias-supplied value), so the alternate spelling's value does not reach
the canonical destination even though the canonical name was unresolved. -/
theorem C4_counterexample :
    alookup (column_values [("desciption_fr", "X"), ("ean", "E")] "P"
      [("description_fr", ⟨"same", "input_file", [("P", "B")]⟩),
       ("shop_sku", ⟨"same", "input_file", [("P", "B")]⟩)]
      ⟨[], []⟩) "B" = some "E" ∧ ("E" : Val) ≠ "X" :=
  ⟨rfl, by decide⟩

/-- C4 (amended): whichever of `description_fr` (canonical spelling) /
`desciption_fr` (misspelled, historical) is the mapped attribute, the
product's value under the canonical spelling wins, and the alternate
supplies the destination's value exactly when the canonical name is
unresolved — unconditionally when the misspelled name is the mapped one
(its compatibility rule runs last), and provided no other mapping row (for
example `shop_sku` with a present `ean`) targets the same destination when
the canonical name is the mapped one. -/
theorem C4_alias_description_fallback (product : Product) (platform : String)
    (mapping : Mapping) (attrs : Attrs) (cfg : AttrConfig) (c : String)
    (v : Val) :
    ((alookup mapping "desciption_fr" = some cfg →
      alookup cfg.columns platform = some c →
      ((alookup product "description_fr" = some v →
        alookup (column_values product platform mapping attrs) c = some v) ∧
       (alookup product "description_fr" = none →
        alookup product "desciption_fr" = some v →
        alookup (column_values product platform mapping attrs) c = some v)))) ∧
    ((mapping.map Prod.fst).Nodup →
      alookup mapping "description_fr" = some cfg →
      alookup cfg.columns platform = some c →
      cfg.data_source = "input_file" →
      (∀ p ∈ mapping, p.1 ≠ "description_fr" →
        alookup p.2.columns platform ≠ some c) →
      ((alookup product "description_fr" = some v →
        alookup (column_values product platform mapping attrs) c = some v) ∧
       (alookup product "description_fr" = none →
        alookup product "desciption_fr" = some v →
        alookup (column_values product platform mapping attrs) c = some v))) := by
  constructor
  · intro hm hcc
    constructor
    · intro hd
      unfold column_values
      rw [alias_rule_desc _ hm hcc hd]
      exact alookup_dictInsert_self _ c v
    · intro hd hmp
      unfold column_values
      rw [alias_rule_missp _ hm hcc hd hmp]
      exact alookup_dictInsert_self _ c v
  · intro hnodup hm hc hds hother
    have hbase : alookup (column_values product platform mapping attrs) c =
        resolve_value "description_fr" cfg product platform attrs := by
      unfold column_values
      rw [post_rules_preserve product platform mapping c _ hother]
      exact transform_unique_writer product platform attrs mapping
        "description_fr" cfg c hm hnodup hc hother
    rw [hbase, resolve_value_description cfg product platform attrs hds]
    constructor
    · intro hd
      rw [hd]
    · intro hd hmp
      rw [hd, hmp]

/-- Witness for C4 (amended): the misspelled name mapped to column B; once
with the canonical value present (it wins), once with only the misspelled
value (it supplies the destination). -/
theorem C4_witness :
    alookup (column_values [("description_fr", "D")] "P"
      [("desciption_fr", ⟨"same", "input_file", [("P", "B")]⟩)]
      ⟨[], []⟩) "B" = some "D" ∧
    alookup (column_values [("desciption_fr", "X")] "P"
      [("desciption_fr", ⟨"same", "input_file", [("P", "B")]⟩)]
      ⟨[], []⟩) "B" = some "X" :=
  ⟨((C4_alias_description_fallback [("description_fr", "D")] "P"
      [("desciption_fr", ⟨"same", "input_file", [("P", "B")]⟩)] ⟨[], []⟩
      ⟨"same", "input_file", [("P", "B")]⟩ "B" "D").1 rfl rfl).1 rfl,
   ((C4_alias_description_fallback [("desciption_fr", "X")] "P"
      [("desciption_fr", ⟨"same", "input_file", [("P", "B")]⟩)] ⟨[], []⟩
      ⟨"same", "input_file", [("P", "B")]⟩ "B" "X").1 rfl rfl).2 rfl rfl⟩

/-! ### The translation gate (src/translator.py) -/

/-- The product source file as a frame: column names, and rows of optional
cell values aligned positionally with `cols`. -/
structure Frame where
  cols : List String
  rows : List (List (Option Val))
deriving DecidableEq

/-- Cell read `df.at[i, c]` / `row[c]` (0-based row index, column by
name); absent rows, absent columns and NA cells all read as `none`. -/
def Frame.cell (f : Frame) (i : Nat) (c : String) : Option Val :=
  (f.rows.getD i []).getD (f.cols.indexOf c) none

/-- Cell write `df.at[i, c] = v`: set the position of column `c` in row
`i`; the column set of the frame never changes. -/
def Frame.setCellAt (f : Frame) (i : Nat) (c : String) (v : Val) : Frame :=
  { f with rows := setRowIdx f.rows i (f.cols.indexOf c) v }

/-- The supported language-code table of src/translator.py. -/
def LANGUAGE_CODES : List (String × String) :=
  [("en", "EN"), ("fr", "FR"), ("it", "IT"), ("es", "ES"),
   ("de", "DE"), ("nl", "NL"), ("pl", "PL"), ("pt", "PT")]

/-- The recognized translatable base field names (the misspelled
`desciption` is included deliberately, as in the source). -/
def baseFieldNames : List String :=
  ["title", "description", "desciption", "short_description",
   "long_description"]

/-- Python `str.lower` on a string. -/
def lowerStr (s : String) : String := ⟨s.data.map lowChar⟩

/-- Python `dict[base].append(col)` with creation on first sight:
append `col` to base `b`'s group, keeping insertion order. -/
def addToGroup (groups : List (String × List String)) (b col : String) :
    List (String × List String) :=
  if groups.any (fun g => g.1 = b) then
    groups.map (fun g => if g.1 = b then (b, g.2 ++ [col]) else g)
  else
    groups ++ [(b, [col])]

/-- Embeds `identify_translatable_fields`: scan the columns; a column
whose lowercase form starts with `base_` and whose remainder (computed
with `str.replace`, as in the source) is a recognized language code joins
that base's group. -/
def translatable_fields (cols : List String) : List (String × List String) :=
  cols.foldl (fun groups col =>
    baseFieldNames.foldl (fun groups b =>
      if leadsWith (b ++ "_").data (lowerStr col).data then
        if (alookup LANGUAGE_CODES
            ⟨replaceAll (b ++ "_").data [] (lowerStr col).data⟩).isSome then
          addToGroup groups b col
        else groups
      else groups) groups) []

/-- First group column whose lowercase form ends in `_en`
(the designated translation source). -/
def findEnColumn (cols : List String) : Option String :=
  cols.find? (fun col => trailsWith "_en".data (lowerStr col).data)

/-- Emptiness as the translator tests it: NA, or blank after stripping. -/
def cellBlank : Option Val → Bool
  | none => true
  | some s => (stripChars s.data).isEmpty

/-- Mutable state of `translate_input_file`: the frame plus the two
counters. -/
structure TGate where
  df : Frame
  made : Nat
  skipped : Nat
deriving DecidableEq

/-- Embeds the body of the per-column loop of `translate_input_file`
(lines 188-222): skip the source column; count and skip pre-filled cells;
skip unparsable column names and unknown language codes; otherwise call
the translation capability `tr` on the stripped English text and, on
success, write the result into the cell. -/
def processLangCol (tr : Val → String → Option Val) (cols : List String)
    (base en_column : String) (snapshot : List (Option Val)) (en_text : Val)
    (idx : Nat) (st : TGate) (lang_col : String) : TGate :=
  if lang_col = en_column then st
  else if cellBlank (snapshot.getD (cols.indexOf lang_col) none) = false then
    { st with skipped := st.skipped + 1 }
  else if leadsWith (base ++ "_").data (lowerStr lang_col).data = false then st
  else
    match alookup LANGUAGE_CODES
        ⟨replaceAll (base ++ "_").data [] (lowerStr lang_col).data⟩ with
    | none => st
    | some target =>
      match tr en_text target with
      | some translated =>
        { st with df := st.df.setCellAt idx lang_col translated,
                  made := st.made + 1 }
      | none => st

/-- Embeds the per-row step (lines 179-222): snapshot the row; if the
English source cell is blank, skip the row for this group, otherwise
process every column of the group against the snapshot. -/
def processRow (tr : Val → String → Option Val) (cols : List String)
    (base en_column : String) (group_cols : List String) (st : TGate)
    (idx : Nat) : TGate :=
  if cellBlank ((st.df.rows.getD idx []).getD (cols.indexOf en_column) none)
  then st
  else
    group_cols.foldl
      (processLangCol tr cols base en_column (st.df.rows.getD idx [])
        (match (st.df.rows.getD idx []).getD (cols.indexOf en_column) none with
          | some s => ⟨stripChars s.data⟩
          | none => "") idx) st

/-- Embeds the per-group step (lines 166-222): find the English source
column; groups without one are skipped entirely, otherwise every row is
processed. -/
def processGroup (tr : Val → String → Option Val) (cols : List String)
    (nrows : Nat) (st : TGate) (g : String × List String) : TGate :=
  match findEnColumn g.2 with
  | none => st
  | some en_column =>
    (List.range nrows).foldl (processRow tr cols g.1 en_column g.2) st

/-- The whole in-memory run of `translate_input_file`: process every
translatable group against the loaded frame, starting from zero
counters. -/
def runTranslation (tr : Val → String → Option Val) (df : Frame) : TGate :=
  (translatable_fields df.cols).foldl
    (processGroup tr df.cols df.rows.length) ⟨df, 0, 0⟩

/-- Observable outcome of `translate_input_file`: the storage after the
call, the Python return value, and the two counts that the function only
logs in its final message. -/
structure TranslateOutcome where
  store : String → Option Frame
  retval : Bool
  logged_made : Nat
  logged_skipped : Nat

/-- Embeds `translate_input_file` (happy path): read the product source at
its input path, run the translation loops, persist the result back to the
same path (overwriting the original), log the counts and return True; a
missing input file returns False and changes nothing. -/
def translate_input_file (tr : Val → String → Option Val)
    (store : String → Option Frame) (path : String) : TranslateOutcome :=
  match store path with
  | none => ⟨store, false, 0, 0⟩
  | some df =>
    let st := runTranslation tr df
    ⟨fun p => if p = path then some st.df else store p, true,
      st.made, st.skipped⟩

/-! ### Frame cell-write lemmas -/

theorem Frame.cols_setCellAt (f : Frame) (i : Nat) (c : String) (v : Val) :
    (f.setCellAt i c v).cols = f.cols := rfl

theorem indexOf_ne_of_mem {cols : List String} {c c' : String}
    (hc : c ∈ cols) (hne : c' ≠ c) :
    cols.indexOf c' ≠ cols.indexOf c := by
  by_cases hc' : c' ∈ cols
  · intro h
    apply hne
    have hlt' := List.indexOf_lt_length.mpr hc'
    have hlt := List.indexOf_lt_length.mpr hc
    have e1 : cols[cols.indexOf c']? = some c' := by
      rw [List.getElem?_eq_getElem hlt']
      exact congrArg some (List.getElem_indexOf hlt')
    have e2 : cols[cols.indexOf c]? = some c := by
      rw [List.getElem?_eq_getElem hlt]
      exact congrArg some (List.getElem_indexOf hlt)
    rw [h, e2] at e1
    exact (Option.some.inj e1).symm
  · intro h
    rw [List.indexOf_eq_length.mpr hc'] at h
    have hlt := List.indexOf_lt_length.mpr hc
    omega

theorem Frame.cell_setCellAt_other (f : Frame) (idx : Nat) (c : String)
    (v : Val) (i' : Nat) (c' : String)
    (h : i' ≠ idx ∨ f.cols.indexOf c' ≠ f.cols.indexOf c) :
    (f.setCellAt idx c v).cell i' c' = f.cell i' c' := by
  unfold Frame.setCellAt Frame.cell
  rcases h with h | h
  · rw [setRowIdx_getD_other f.rows idx (f.cols.indexOf c) v i' h]
  · by_cases hrow : i' = idx
    · subst hrow
      rw [setRowIdx_getD_self]
      exact getD_setIdx_other _ _ _ _ h
    · rw [setRowIdx_getD_other f.rows idx _ v i' hrow]

/-! ### Disjointness of the translatable groups -/

theorem leadsWith_of_le : ∀ (l p q : List Char), leadsWith p l = true →
    leadsWith q l = true → p.length ≤ q.length → leadsWith p q = true := by
  intro l
  induction l with
  | nil =>
    intro p q hp _ _
    cases p with
    | nil => cases q <;> rfl
    | cons a p2 => exact absurd hp (by simp [leadsWith])
  | cons c l2 ih =>
    intro p q hp hq hle
    cases p with
    | nil => cases q <;> rfl
    | cons a p2 =>
      cases q with
      | nil => simp at hle
      | cons b q2 =>
        simp only [leadsWith, Bool.and_eq_true, decide_eq_true_eq] at hp hq ⊢
        refine ⟨by rw [hp.1, hq.1], ?_⟩
        exact ih p2 q2 hp.2 hq.2
          (by simp only [List.length_cons] at hle; omega)

theorem base_distinct : ∀ b1 ∈ baseFieldNames, ∀ b2 ∈ baseFieldNames,
    leadsWith (b1 ++ "_").data (b2 ++ "_").data = true → b1 = b2 := by
  decide

theorem keys_nodup_unique {α : Type} {l : List (String × α)} {k : String}
    {a b : α} (hnd : (l.map Prod.fst).Nodup)
    (ha : (k, a) ∈ l) (hb : (k, b) ∈ l) : a = b := by
  induction l with
  | nil => cases ha
  | cons x t ih =>
    rw [List.map_cons, List.nodup_cons] at hnd
    rcases List.mem_cons.mp ha with rfl | ha2
    · rcases List.mem_cons.mp hb with heq | hb2
      · injection heq with _ h2
        exact h2.symm
      · exact absurd (List.mem_map.mpr ⟨(k, b), hb2, rfl⟩) hnd.1
    · rcases List.mem_cons.mp hb with rfl | hb2
      · exact absurd (List.mem_map.mpr ⟨(k, a), ha2, rfl⟩) hnd.1
      · exact ih hnd.2 ha2 hb2

/-- The invariant established while building the translatable groups:
base names are distinct and recognized, and every group member is an input
column whose lowercase form starts with the group's base and separator. -/
def GProp (cols : List String) (groups : List (String × List String)) : Prop :=
  (groups.map Prod.fst).Nodup ∧
  ∀ bg ∈ groups, bg.1 ∈ baseFieldNames ∧
    ∀ c ∈ bg.2, c ∈ cols ∧
      leadsWith (bg.1 ++ "_").data (lowerStr c).data = true

theorem addToGroup_gprop {cols : List String}
    {groups : List (String × List String)} {b col : String}
    (hg : GProp cols groups) (hb : b ∈ baseFieldNames) (hcol : col ∈ cols)
    (hlw : leadsWith (b ++ "_").data (lowerStr col).data = true) :
    GProp cols (addToGroup groups b col) := by
  constructor
  · unfold addToGroup
    by_cases h : groups.any (fun g => g.1 = b) = true
    · rw [if_pos h]
      have hkeys : (groups.map (fun g => if g.1 = b then (b, g.2 ++ [col])
          else g)).map Prod.fst = groups.map Prod.fst := by
        rw [List.map_map]
        apply List.map_congr_left
        intro g _
        by_cases hgb : g.1 = b
        · simp [hgb]
        · simp [hgb]
      rw [hkeys]
      exact hg.1
    · rw [if_neg h, List.map_append, List.nodup_append]
      refine ⟨hg.1, by simp, ?_⟩
      intro a ha hk
      have hab : a = b := by simpa using hk
      rcases List.mem_map.mp ha with ⟨g0, hg0, hga⟩
      exact h (List.any_eq_true.mpr ⟨g0, hg0, by simp [hga, hab]⟩)
  · intro bg hbg
    unfold addToGroup at hbg
    by_cases h : groups.any (fun g => g.1 = b) = true
    · rw [if_pos h] at hbg
      rcases List.mem_map.mp hbg with ⟨g0, hg0, hga⟩
      by_cases hgb : g0.1 = b
      · rw [if_pos hgb] at hga
        rw [← hga]
        refine ⟨hb, ?_⟩
        intro c hc
        rcases List.mem_append.mp hc with hc1 | hc1
        · have := (hg.2 g0 hg0).2 c hc1
          rw [hgb] at this
          exact this
        · have hcc : c = col := by simpa using hc1
          rw [hcc]
          exact ⟨hcol, hlw⟩
      · rw [if_neg hgb] at hga
        rw [← hga]
        exact hg.2 g0 hg0
    · rw [if_neg h] at hbg
      rcases List.mem_append.mp hbg with hb1 | hb1
      · exact hg.2 bg hb1
      · have hbe : bg = (b, [col]) := by simpa using hb1
        rw [hbe]
        refine ⟨hb, ?_⟩
        intro c hc
        have hcc : c = col := by simpa using hc
        rw [hcc]
        exact ⟨hcol, hlw⟩

theorem translatable_fields_gprop (cols : List String) :
    GProp cols (translatable_fields cols) := by
  unfold translatable_fields
  refine foldl_preserves_mem (GProp cols) _ cols ?_ cols (fun a ha => ha) []
    ⟨by simp, fun bg hbg => absurd hbg (List.not_mem_nil bg)⟩
  intro groups col hcolmem hg
  refine foldl_preserves_mem (GProp cols) _ baseFieldNames ?_ baseFieldNames
    (fun a ha => ha) groups hg
  intro gs b hb hgs
  by_cases h1 : leadsWith (b ++ "_").data (lowerStr col).data = true
  · rw [if_pos h1]
    by_cases h2 : (alookup LANGUAGE_CODES
        ⟨replaceAll (b ++ "_").data [] (lowerStr col).data⟩).isSome = true
    · rw [if_pos h2]
      exact addToGroup_gprop hgs hb hcolmem h1
    · rw [if_neg h2]
      exact hgs
  · rw [if_neg h1]
    exact hgs

theorem groups_disjoint (cols : List String) {b1 b2 c : String}
    {g1 g2 : List String}
    (h1 : (b1, g1) ∈ translatable_fields cols)
    (h2 : (b2, g2) ∈ translatable_fields cols)
    (hc1 : c ∈ g1) (hc2 : c ∈ g2) : b1 = b2 ∧ g1 = g2 := by
  have hp := translatable_fields_gprop cols
  have e1 := hp.2 (b1, g1) h1
  have e2 := hp.2 (b2, g2) h2
  have l1 := (e1.2 c hc1).2
  have l2 := (e2.2 c hc2).2
  have hb : b1 = b2 := by
    by_cases hle : (b1 ++ "_").data.length ≤ (b2 ++ "_").data.length
    · exact base_distinct b1 e1.1 b2 e2.1
        (leadsWith_of_le (lowerStr c).data _ _ l1 l2 hle)
    · exact (base_distinct b2 e2.1 b1 e1.1
        (leadsWith_of_le (lowerStr c).data _ _ l2 l1 (by omega))).symm
  subst hb
  exact ⟨rfl, keys_nodup_unique hp.1 h1 h2⟩

/-! ### The translation-gate frame invariant -/

/-- The condition under which the gate is allowed to have changed cell
`(i, c)`: the cell sits in a non-source column of a recognized group, it
was blank in the original frame, and the row's English source cell was
not. -/
def TCond (df : Frame) (i : Nat) (c : String) : Prop :=
  ∃ b gcols en, (b, gcols) ∈ translatable_fields df.cols ∧ c ∈ gcols ∧
    findEnColumn gcols = some en ∧ c ≠ en ∧
    cellBlank (df.cell i c) = true ∧ cellBlank (df.cell i en) = false

/-- The running invariant: columns unchanged, and every changed cell
satisfies `TCond`. -/
def TInv (df : Frame) (st : TGate) : Prop :=
  st.df.cols = df.cols ∧
  ∀ i c, st.df.cell i c ≠ df.cell i c → TCond df i c

theorem en_stable {df : Frame} {st : TGate} (hinv : TInv df st)
    {b : String} {gcols : List String} {en : String}
    (hg : (b, gcols) ∈ translatable_fields df.cols)
    (hen : findEnColumn gcols = some en) (i : Nat) :
    st.df.cell i en = df.cell i en := by
  by_contra hne
  obtain ⟨b2, g2, en2, hg2, hc2, hen2, hne2, _, _⟩ := hinv.2 i en hne
  have henmem : en ∈ gcols := List.mem_of_find?_eq_some hen
  obtain ⟨_, hgl⟩ := groups_disjoint df.cols hg2 hg hc2 henmem
  rw [hgl, hen] at hen2
  exact hne2 (Option.some.inj hen2)

theorem processLangCol_inv (tr : Val → String → Option Val) {df : Frame}
    {st0 st : TGate} {base en_column : String} {gcols : List String}
    (en_text : Val) (idx : Nat) (lang_col : String)
    (hg : (base, gcols) ∈ translatable_fields df.cols)
    (hen : findEnColumn gcols = some en_column)
    (hmem : lang_col ∈ gcols)
    (hguard : cellBlank (st0.df.cell idx en_column) = false)
    (hinv0 : TInv df st0) (hinv : TInv df st) :
    TInv df (processLangCol tr df.cols base en_column
      (st0.df.rows.getD idx []) en_text idx st lang_col) := by
  unfold processLangCol
  by_cases h1 : lang_col = en_column
  · rw [if_pos h1]
    exact hinv
  · rw [if_neg h1]
    by_cases h2 : cellBlank ((st0.df.rows.getD idx []).getD
        (df.cols.indexOf lang_col) none) = false
    · rw [if_pos h2]
      exact hinv
    · rw [if_neg h2]
      by_cases h3 : leadsWith (base ++ "_").data (lowerStr lang_col).data
          = false
      · rw [if_pos h3]
        exact hinv
      · rw [if_neg h3]
        cases halang : alookup LANGUAGE_CODES
            ⟨replaceAll (base ++ "_").data [] (lowerStr lang_col).data⟩ with
        | none => exact hinv
        | some target =>
          show TInv df (match tr en_text target with
            | some translated =>
              { st with df := st.df.setCellAt idx lang_col translated,
                        made := st.made + 1 }
            | none => st)
          cases htr : tr en_text target with
          | none => exact hinv
          | some translated =>
            have hcolmem : lang_col ∈ df.cols :=
              (((translatable_fields_gprop df.cols).2 (base, gcols) hg).2
                lang_col hmem).1
            refine ⟨hinv.1, ?_⟩
            intro i c hne
            by_cases hcc : c = lang_col
            · subst hcc
              by_cases hii : i = idx
              · subst hii
                by_cases heq0 : st0.df.cell i c = df.cell i c
                · refine ⟨base, gcols, en_column, hg, hmem, hen, h1, ?_, ?_⟩
                  · have hcells : (st0.df.rows.getD i []).getD
                        (df.cols.indexOf c) none = st0.df.cell i c := by
                      unfold Frame.cell
                      rw [hinv0.1]
                    rw [hcells] at h2
                    rw [← heq0]
                    revert h2
                    cases cellBlank (st0.df.cell i c) <;> simp
                  · rw [← en_stable hinv0 hg hen i]
                    exact hguard
                · exact hinv0.2 i c heq0
              · have hunch : (st.df.setCellAt idx c translated).cell i c =
                    st.df.cell i c :=
                  Frame.cell_setCellAt_other st.df idx c translated i c
                    (Or.inl hii)
                rw [hunch] at hne
                exact hinv.2 i c hne
            · have hmemst : lang_col ∈ st.df.cols := by
                rw [hinv.1]
                exact hcolmem
              have hunch : (st.df.setCellAt idx lang_col translated).cell i c
                  = st.df.cell i c :=
                Frame.cell_setCellAt_other st.df idx lang_col translated i c
                  (Or.inr (indexOf_ne_of_mem hmemst hcc))
              rw [hunch] at hne
              exact hinv.2 i c hne

theorem processRow_inv (tr : Val → String → Option Val) {df : Frame}
    {st : TGate} {base en_column : String} {gcols : List String} (idx : Nat)
    (hg : (base, gcols) ∈ translatable_fields df.cols)
    (hen : findEnColumn gcols = some en_column)
    (hinv : TInv df st) :
    TInv df (processRow tr df.cols base en_column gcols st idx) := by
  unfold processRow
  by_cases hb : cellBlank ((st.df.rows.getD idx []).getD
      (df.cols.indexOf en_column) none) = true
  · rw [if_pos hb]
    exact hinv
  · rw [if_neg hb]
    have hguard : cellBlank (st.df.cell idx en_column) = false := by
      have hcells : (st.df.rows.getD idx []).getD
          (df.cols.indexOf en_column) none = st.df.cell idx en_column := by
        unfold Frame.cell
        rw [hinv.1]
      rw [hcells] at hb
      revert hb
      cases cellBlank (st.df.cell idx en_column) <;> simp
    refine foldl_preserves_mem (TInv df) _ gcols ?_ gcols (fun a ha => ha)
      st hinv
    intro st2 lang_col hlc hinv2
    exact processLangCol_inv tr _ idx lang_col hg hen hlc hguard hinv hinv2

theorem processGroup_inv (tr : Val → String → Option Val) {df : Frame}
    (nrows : Nat) {st : TGate} {g : String × List String}
    (hg : g ∈ translatable_fields df.cols) (hinv : TInv df st) :
    TInv df (processGroup tr df.cols nrows st g) := by
  unfold processGroup
  cases hen : findEnColumn g.2 with
  | none => exact hinv
  | some en_column =>
    refine foldl_preserves (TInv df) _ ?_ (List.range nrows) st hinv
    intro st2 idx hinv2
    exact processRow_inv tr idx hg hen hinv2

theorem runTranslation_inv (tr : Val → String → Option Val) (df : Frame) :
    TInv df (runTranslation tr df) := by
  unfold runTranslation
  refine foldl_preserves_mem (TInv df) _ (translatable_fields df.cols) ?_
    (translatable_fields df.cols) (fun a ha => ha) ⟨df, 0, 0⟩
    ⟨rfl, fun i c hne => absurd rfl hne⟩
  intro st g hgmem hinv
  exact processGroup_inv tr df.rows.length hgmem hinv

/-- C5: a run of the translation gate changes a cell only if the cell sits
in a non-source column of a recognized translatable group, was blank
before the run, and the row's English source cell was non-blank; every
pre-filled target cell, every target in a row with a blank source, and
every column outside recognized groups is left exactly unchanged (and the
column set itself never changes). -/
theorem C5_translation_gate_frame (tr : Val → String → Option Val)
    (df : Frame) (i : Nat) (c : String) :
    (runTranslation tr df).df.cols = df.cols ∧
    ((runTranslation tr df).df.cell i c ≠ df.cell i c →
      ∃ b gcols en, (b, gcols) ∈ translatable_fields df.cols ∧ c ∈ gcols ∧
        findEnColumn gcols = some en ∧ c ≠ en ∧
        cellBlank (df.cell i c) = true ∧
        cellBlank (df.cell i en) = false) :=
  ⟨(runTranslation_inv tr df).1, fun hne => (runTranslation_inv tr df).2 i c hne⟩

/-- Witness for C5: a concrete frame where the gate fills exactly the
blank French cell from the English source. -/
theorem C5_witness :
    (runTranslation (fun _ t => some ("T-" ++ t))
      ⟨["title_en", "title_fr"], [[some "Hello", none]]⟩).df.cols =
      (⟨["title_en", "title_fr"], [[some "Hello", none]]⟩ : Frame).cols ∧
    ∃ b gcols en,
      (b, gcols) ∈ translatable_fields
        (⟨["title_en", "title_fr"], [[some "Hello", none]]⟩ : Frame).cols ∧
      ("title_fr" : String) ∈ gcols ∧ findEnColumn gcols = some en ∧
      ("title_fr" : String) ≠ en ∧
      cellBlank ((⟨["title_en", "title_fr"], [[some "Hello", none]]⟩ :
        Frame).cell 0 "title_fr") = true ∧
      cellBlank ((⟨["title_en", "title_fr"], [[some "Hello", none]]⟩ :
        Frame).cell 0 en) = false :=
  ⟨(C5_translation_gate_frame (fun _ t => some ("T-" ++ t))
      ⟨["title_en", "title_fr"], [[some "Hello", none]]⟩ 0 "title_fr").1,
   (C5_translation_gate_frame (fun _ t => some ("T-" ++ t))
      ⟨["title_en", "title_fr"], [[some "Hello", none]]⟩ 0 "title_fr").2
     (by decide)⟩

/-! ### C7: persistence and return value of translate_input_file -/

/-- C7 counterexample: the function returns only a success flag; the
aggregate counts are written to the log, not returned — two runs with
different made/skipped counts produce the identical return value
`true`, so the return value cannot be the counts. -/
theorem C7_counterexample :
    (translate_input_file (fun _ t => some ("T-" ++ t))
      (fun p => if p = "f" then some ⟨["title_en", "title_fr"],
        [[some "Hello", none]]⟩ else none) "f").retval =
      (translate_input_file (fun _ t => some ("T-" ++ t))
        (fun p => if p = "f" then some ⟨["title_en", "title_fr"],
          [[some "Hello", some "Bonjour"]]⟩ else none) "f").retval ∧
    (translate_input_file (fun _ t => some ("T-" ++ t))
      (fun p => if p = "f" then some ⟨["title_en", "title_fr"],
        [[some "Hello", none]]⟩ else none) "f").logged_made = 1 ∧
    (translate_input_file (fun _ t => some ("T-" ++ t))
      (fun p => if p = "f" then some ⟨["title_en", "title_fr"],
        [[some "Hello", some "Bonjour"]]⟩ else none) "f").logged_made = 0 ∧
    (translate_input_file (fun _ t => some ("T-" ++ t))
      (fun p => if p = "f" then some ⟨["title_en", "title_fr"],
        [[some "Hello", some "Bonjour"]]⟩ else none) "f").logged_skipped
      = 1 :=
  ⟨rfl, rfl, rfl, rfl⟩

/-- C7 (amended): on the happy path the gate persists the processed frame
back to storage at the same path it read — overwriting the original and
leaving every other path untouched — and returns True; the aggregate
made/skipped counts are computed and reported in the final log message,
not returned. -/
theorem C7_persist_in_place (tr : Val → String → Option Val)
    (store : String → Option Frame) (path : String) (df : Frame)
    (h : store path = some df) :
    (translate_input_file tr store path).store path =
      some (runTranslation tr df).df ∧
    (∀ p, p ≠ path → (translate_input_file tr store path).store p = store p) ∧
    (translate_input_file tr store path).retval = true ∧
    (translate_input_file tr store path).logged_made =
      (runTranslation tr df).made ∧
    (translate_input_file tr store path).logged_skipped =
      (runTranslation tr df).skipped := by
  unfold translate_input_file
  rw [h]
  refine ⟨by simp, fun p hp => by simp [hp], rfl, rfl, rfl⟩

/-- Witness for C7 (amended): a concrete store holding one product file. -/
theorem C7_witness :
    (translate_input_file (fun _ t => some ("T-" ++ t))
      (fun p => if p = "in.xlsx" then
        some ⟨["title_en", "title_fr"], [[some "Hello", none]]⟩ else none)
      "in.xlsx").store "in.xlsx" =
      some (runTranslation (fun _ t => some ("T-" ++ t))
        ⟨["title_en", "title_fr"], [[some "Hello", none]]⟩).df ∧
    (translate_input_file (fun _ t => some ("T-" ++ t))
      (fun p => if p = "in.xlsx" then
        some ⟨["title_en", "title_fr"], [[some "Hello", none]]⟩ else none)
      "in.xlsx").retval = true :=
  ⟨(C7_persist_in_place (fun _ t => some ("T-" ++ t))
      (fun p => if p = "in.xlsx" then
        some ⟨["title_en", "title_fr"], [[some "Hello", none]]⟩ else none)
      "in.xlsx" ⟨["title_en", "title_fr"], [[some "Hello", none]]⟩ rfl).1,
   (C7_persist_in_place (fun _ t => some ("T-" ++ t))
      (fun p => if p = "in.xlsx" then
        some ⟨["title_en", "title_fr"], [[some "Hello", none]]⟩ else none)
      "in.xlsx" ⟨["title_en", "title_fr"], [[some "Hello", none]]⟩
      rfl).2.2.1⟩

end PM

